import Mathlib

/-!
Shallow embedding of the MBPQS core (multi-blockchain post-quantum signatures).

The embedding follows the Go sources `mbpqs.go` and `channel.go`.  Parts of the
repository that are not shipped with the sources (hash.go, wots.go, address.go,
context.go, roottree.go and a few private helpers) are modelled from the
specification; each such definition carries a doc comment starting with
`Modelled from the spec:`.

Byte strings are `List Nat`; the underlying hash function (SHA-256/SHA-512) is
an external primitive, so the whole development is parametric in it (field
`hashF` of `Ctx`).
-/

namespace MBPQS

/-- Byte strings. -/
abbrev Bytes := List Nat

/-- Big-endian zero-padded encoding of `x` in `k` bytes (`toByte(x,k)` of the spec). -/
def toByte (x k : Nat) : Bytes :=
  (List.range k).map (fun i => x / 256 ^ (k - 1 - i) % 256)

/-- Byte-wise xor, used by the chaining function and the keyed node hash. -/
def xorB (a b : Bytes) : Bytes := List.zipWith (fun x y => x ^^^ y) a b

/-- MBPQS parameters (`Params` in mbpqs.go): security parameter `n`, Winternitz
parameter `w`, root-tree height `rootH`, initial chain-tree height `chanH` and
growth exponent `ge`. -/
structure Params where
  n : Nat
  w : Nat
  rootH : Nat
  chanH : Nat
  ge : Nat
deriving DecidableEq

/-- Fuel-driven floor of the base-2 logarithm (kept structurally recursive so
that it evaluates inside the kernel). -/
def log2f : Nat → Nat → Nat
  | 0, _ => 0
  | f + 1, m => if m < 2 then 0 else log2f f (m / 2) + 1

/-- `log2(w)` for the Winternitz parameter. -/
def lgw (w : Nat) : Nat := log2f w w

/-- `len1 = ceil(8n / log2 w)`: number of base-`w` digits of the message digest. -/
def wotsLen1 (p : Params) : Nat := (8 * p.n + (lgw p.w - 1)) / lgw p.w

/-- `len2 = floor(log2(len1 * (w-1)) / log2 w) + 1`: number of checksum digits. -/
def wotsLen2 (p : Params) : Nat :=
  log2f (wotsLen1 p * (p.w - 1)) (wotsLen1 p * (p.w - 1)) / lgw p.w + 1

/-- `len = len1 + len2`: total number of WOTS+ chains. -/
def wotsLen (p : Params) : Nat := wotsLen1 p + wotsLen2 p

/-- Context (`Context` in context.go, not under src/): the parameters, the
worker-thread count, and the underlying hash function (SHA-256 for n = 32,
SHA-512 for n = 64), kept abstract. -/
structure Ctx where
  p : Params
  threads : Nat
  hashF : Bytes → Bytes

/-- Modelled from the spec: the 32-byte structured hash address of address.go
(not under src/).  Fields per §3: `layer (4) | tree (8) | type (4)` followed by
three variant-specific words (`w4`, `w5`, `w6`) and the key-and-mask word.
For the OTS variant `w4/w5/w6` are otsIndex/chainIndex/hashIndex, for the
L-tree variant lTreeIndex/treeHeight/treeIndex, for the node variant
padding/treeHeight/treeIndex. -/
structure Address where
  layer : Nat
  tree : Nat
  typ : Nat
  w4 : Nat
  w5 : Nat
  w6 : Nat
  km : Nat
deriving DecidableEq

/-- The all-zero address (Go's zero value `var a address`). -/
def emptyAddr : Address := ⟨0, 0, 0, 0, 0, 0, 0⟩

/-- Address type tag of WOTS+ addresses (XMSS-T convention). -/
def otsAddrType : Nat := 0

/-- Address type tag of L-tree addresses. -/
def lTreeAddrType : Nat := 1

/-- Address type tag of hash-tree node addresses. -/
def treeAddrType : Nat := 2

def Address.setOTS (a : Address) (i : Nat) : Address := { a with w4 := i }

def Address.setLTree (a : Address) (i : Nat) : Address := { a with w4 := i }

def Address.setType (a : Address) (t : Nat) : Address := { a with typ := t }

def Address.setLayer (a : Address) (l : Nat) : Address := { a with layer := l }

def Address.setTree (a : Address) (t : Nat) : Address := { a with tree := t }

def Address.setTreeHeight (a : Address) (h : Nat) : Address := { a with w5 := h }

def Address.setTreeIndex (a : Address) (i : Nat) : Address := { a with w6 := i }

def Address.setChainIdx (a : Address) (i : Nat) : Address := { a with w5 := i }

def Address.setHashIdx (a : Address) (i : Nat) : Address := { a with w6 := i }

def Address.setKeyAndMask (a : Address) (b : Nat) : Address := { a with km := b }

/-- `SubTreeAddress` of address.go: the (layer, tree) part of an address. -/
structure SubTreeAddress where
  Layer : Nat
  Tree : Nat

def SubTreeAddress.address (s : SubTreeAddress) : Address :=
  { emptyAddr with layer := s.Layer, tree := s.Tree }

def Address.setSubTreeFrom (a b : Address) : Address :=
  { a with layer := b.layer, tree := b.tree }

/-- 32-byte big-endian image of an address, fed to the keyed hashes. -/
def addrBytes (a : Address) : Bytes :=
  toByte a.layer 4 ++ toByte a.tree 8 ++ toByte a.typ 4 ++ toByte a.w4 4 ++
    toByte a.w5 4 ++ toByte a.w6 4 ++ toByte a.km 4

/-- Modelled from the spec: `F(key, msg) = Hash(toByte(0,n) ‖ key ‖ msg)` (§4.1;
hash.go is not under src/). -/
def Ctx.F (c : Ctx) (key msg : Bytes) : Bytes :=
  c.hashF (toByte 0 c.p.n ++ key ++ msg)

/-- Modelled from the spec: `H(key, msg) = Hash(toByte(1,n) ‖ key ‖ msg)` (§4.1). -/
def Ctx.H (c : Ctx) (key msg : Bytes) : Bytes :=
  c.hashF (toByte 1 c.p.n ++ key ++ msg)

/-- Modelled from the spec: `H_msg(key, msg) = Hash(toByte(2,n) ‖ key ‖ msg)` (§4.1). -/
def Ctx.Hmsg (c : Ctx) (key msg : Bytes) : Bytes :=
  c.hashF (toByte 2 c.p.n ++ key ++ msg)

/-- Modelled from the spec: `PRF(key, addr) = Hash(toByte(3,n) ‖ key ‖ addr)` (§4.1). -/
def Ctx.prf (c : Ctx) (key : Bytes) (a : Address) : Bytes :=
  c.hashF (toByte 3 c.p.n ++ key ++ addrBytes a)

/-- Modelled from the spec: `PRF_uint64(key, i)`, PRF with `toByte(i,32)` in
place of the address (§4.1); derives the per-signature randomness `drv`. -/
def Ctx.prfUint64 (c : Ctx) (i : Nat) (key : Bytes) : Bytes :=
  c.hashF (toByte 3 c.p.n ++ key ++ toByte i 32)

/-- Modelled from the spec: `PRF_keygen(skSeed, addr)`, the keyed hash deriving
per-chain WOTS+ secret seeds (§4.1/§4.2); given its own domain tag. -/
def Ctx.prfKeygen (c : Ctx) (key : Bytes) (a : Address) : Bytes :=
  c.hashF (toByte 4 c.p.n ++ key ++ addrBytes a)

/-- `hashMessage(msg, drv, root, sigIdx) = H_msg(drv ‖ root ‖ toByte(sigIdx, n), msg)`
(§4.1).  The Go version can also report a scratchpad write error; the spec's
`H_msg` is total, so the model is total. -/
def Ctx.hashMessage (c : Ctx) (msg drv root : Bytes) (idx : Nat) : Bytes :=
  c.Hmsg (drv ++ root ++ toByte idx c.p.n) msg

/-- Modelled from the spec: the keyed sibling-pair hash `hInto` of hash.go
(§4.3): key and two bitmasks are PRF images of the address with key-and-mask
tags 0, 1, 2. -/
def Ctx.hNode (c : Ctx) (pubSeed : Bytes) (a : Address) (l r : Bytes) : Bytes :=
  c.H (c.prf pubSeed (a.setKeyAndMask 0))
    (xorB l (c.prf pubSeed (a.setKeyAndMask 1)) ++ xorB r (c.prf pubSeed (a.setKeyAndMask 2)))

/-- Modelled from the spec: the WOTS+ chain function (§4.2): `steps` applications
of `F`, the `i`-th using the address with hashIndex `i` to derive the round key
(tag 0) and bitmask (tag 1). -/
def Ctx.chainF (c : Ctx) (pubSeed : Bytes) (a : Address) : Bytes → Nat → Nat → Bytes
  | x, _, 0 => x
  | x, s, steps + 1 =>
    let a1 := a.setHashIdx s
    let key := c.prf pubSeed (a1.setKeyAndMask 0)
    let bm := c.prf pubSeed (a1.setKeyAndMask 1)
    c.chainF pubSeed a (c.F key (xorB x bm)) (s + 1) steps

/-- The `8/log2(w)` base-`w` digits of one byte, most significant first (§4.2). -/
def byteDigits (logw b : Nat) : List Nat :=
  (List.range (8 / logw)).map (fun j => b / 2 ^ (8 - logw * (j + 1)) % 2 ^ logw)

/-- Modelled from the spec: base-`w` expansion of a byte string into `cnt`
digits, most significant first (§4.2). -/
def baseW (logw : Nat) (m : Bytes) (cnt : Nat) : List Nat :=
  (m.flatMap (byteDigits logw)).take cnt

/-- Modelled from the spec: the WOTS+ checksum `C = Σ (w−1−d_i)`, left-shifted by
`(8 − (len2·log2 w) mod 8) mod 8` bits and expanded as `len2` base-`w` digits (§4.2). -/
def wotsChecksum (p : Params) (msgDigits : List Nat) : List Nat :=
  let csum := (msgDigits.map (fun d => p.w - 1 - d)).sum
  let shifted := csum * 2 ^ ((8 - (wotsLen2 p * lgw p.w) % 8) % 8)
  baseW (lgw p.w) (toByte shifted ((wotsLen2 p * lgw p.w + 7) / 8)) (wotsLen2 p)

/-- All `len` base-`w` digits (message digits followed by checksum digits). -/
def wotsDigits (c : Ctx) (m : Bytes) : List Nat :=
  let md := baseW (lgw c.p.w) m (wotsLen1 c.p)
  md ++ wotsChecksum c.p md

/-- The `i`-th base-`w` digit of the digest `m` (0 beyond the end). -/
def wdigit (c : Ctx) (m : Bytes) (i : Nat) : Nat := (wotsDigits c m).getD i 0

/-- Modelled from the spec: per-chain WOTS+ secret seed
`s_i = PRF_keygen(skSeed, otsAddr_i)` with `otsAddr_i.chainIndex = i` (§4.2). -/
def wotsSeed (c : Ctx) (skSeed : Bytes) (a : Address) (i : Nat) : Bytes :=
  c.prfKeygen skSeed (a.setChainIdx i)

/-- Modelled from the spec: WOTS+ signing (wots.go is not under src/): the `i`-th
element is `chain(s_i, 0, b[i])` (§4.2). -/
def wotsSign (c : Ctx) (pubSeed skSeed : Bytes) (a : Address) (m : Bytes) : List Bytes :=
  (List.range (wotsLen c.p)).map (fun i =>
    c.chainF pubSeed (a.setChainIdx i) (wotsSeed c skSeed a i) 0 (wdigit c m i))

/-- Modelled from the spec: WOTS+ public key generation: the `i`-th element is
`chain(s_i, 0, w−1)` (§4.2). -/
def wotsPkGen (c : Ctx) (pubSeed skSeed : Bytes) (a : Address) : List Bytes :=
  (List.range (wotsLen c.p)).map (fun i =>
    c.chainF pubSeed (a.setChainIdx i) (wotsSeed c skSeed a i) 0 (c.p.w - 1))

/-- Modelled from the spec: `wotsPkFromSig`: element `i` is recomputed as
`chain(sig_i, b[i], w−1−b[i])` (§4.2). -/
def wotsPkFromSig (c : Ctx) (sig : List Bytes) (m pubSeed : Bytes) (a : Address) : List Bytes :=
  (List.range (wotsLen c.p)).map (fun i =>
    c.chainF pubSeed (a.setChainIdx i) (sig.getD i []) (wdigit c m i) (c.p.w - 1 - wdigit c m i))

/-- A validity condition on the Winternitz parameter: `w` is the full power
`2 ^ log2 w` (true for the admissible values 4, 16, 256). -/
abbrev GoodCtx (c : Ctx) : Prop := 2 ^ lgw c.p.w = c.p.w

/-- One L-tree layer (§4.3): adjacent pairs are hashed with the node hash at
tree-index `i`; an odd trailing element is carried up unmodified. -/
def ltreeLevel (f : Nat → Bytes → Bytes → Bytes) : Nat → List Bytes → List Bytes
  | _, [] => []
  | _, [x] => [x]
  | i, x :: y :: rest => f i x y :: ltreeLevel f (i + 1) rest

/-- Modelled from the spec: the L-tree (§4.3, ltree of wots.go not under src/),
run with fuel so that it evaluates structurally; each level increments the
address tree-height. -/
def ltreeRun (c : Ctx) (pubSeed : Bytes) (a : Address) : Nat → Nat → List Bytes → Bytes
  | _, _, [] => []
  | _, _, [x] => x
  | 0, _, x :: _ :: _ => x
  | fuel + 1, h, x :: y :: rest =>
    ltreeRun c pubSeed a fuel (h + 1)
      (ltreeLevel (fun i l r => c.hNode pubSeed ((a.setTreeHeight h).setTreeIndex i) l r) 0
        (x :: y :: rest))

/-- The L-tree compression of a WOTS+ public key to one n-byte leaf. -/
def Ctx.ltree (c : Ctx) (pubSeed : Bytes) (a : Address) (l : List Bytes) : Bytes :=
  ltreeRun c pubSeed a l.length 0 l

/-- Modelled from the spec: `genLeaf` (not under src/): the L-tree compression of
the WOTS+ public key generated at the given OTS address (§4.4/§4.5). -/
def Ctx.genLeaf (c : Ctx) (skSeed pubSeed : Bytes) (ltA otsA : Address) : Bytes :=
  c.ltree pubSeed ltA (wotsPkGen c pubSeed skSeed otsA)

/-- Modelled from the spec: leaf `k` of the root tree is the L-tree of the WOTS+
public key at OTS address `(layer=0, tree=0, otsIndex=k)` (§4.5). -/
def rtLeaf (c : Ctx) (skSeed pubSeed : Bytes) (k : Nat) : Bytes :=
  c.genLeaf skSeed pubSeed ((emptyAddr.setType lTreeAddrType).setLTree k) (emptyAddr.setOTS k)

/-- Modelled from the spec: node `(h, i)` of the balanced root tree (§4.5,
roottree.go not under src/): standard bottom-up sibling-pair hashing, the
parent at height `h+1` keyed by the node address with tree-height `h`. -/
def rtNode (c : Ctx) (skSeed pubSeed : Bytes) : Nat → Nat → Bytes
  | 0, i => rtLeaf c skSeed pubSeed i
  | h + 1, i =>
    c.hNode pubSeed (((emptyAddr.setType treeAddrType).setTreeHeight h).setTreeIndex i)
      (rtNode c skSeed pubSeed h (2 * i)) (rtNode c skSeed pubSeed h (2 * i + 1))

/-- The root of the root tree. -/
def rtRoot (c : Ctx) (skSeed pubSeed : Bytes) : Bytes := rtNode c skSeed pubSeed c.p.rootH 0

/-- Modelled from the spec: the root-tree authentication path for leaf `k`:
`rootH` siblings, the one at height `h` being `node(h, (k >> h) XOR 1)` (§4.5). -/
def rtAuthPath (c : Ctx) (skSeed pubSeed : Bytes) (k : Nat) : List Bytes :=
  (List.range c.p.rootH).map (fun h => rtNode c skSeed pubSeed h ((k >>> h) ^^^ 1))

/-- The verifier's bottom-up walk of `VerifyChannelRoot` (mbpqs.go): the loop
runs exactly `rootH` rounds (`steps` counts the rounds left); round `h`
(0-based, the code's `height − 1`) slices sibling `h` out of the
authentication path — `rtSig.authPath[(height-1)*n : height*n]`, which past
the path's end is a Go slice panic, modelled by `none` — keys the node
address with tree-height `h` and tree-index `index >> 1`, hashes the sibling
left or right of the running value by `index`'s low bit, and halves `index`.
Path entries beyond `rootH` are never read. -/
def rootWalk (c : Ctx) (pubSeed : Bytes) (ap : List Bytes) :
    Nat → Nat → Nat → Bytes → Option Bytes
  | 0, _, _, cur => some cur
  | steps + 1, h, index, cur =>
    match ap[h]? with
    | none => none
    | some sib =>
      let a1 := (((emptyAddr.setType treeAddrType).setTreeHeight h).setTreeIndex (index >>> 1))
      let nxt := if index % 2 = 0 then c.hNode pubSeed a1 cur sib else c.hNode pubSeed a1 sib cur
      rootWalk c pubSeed ap steps (h + 1) (index >>> 1) nxt

/-- Leaf `i` of the chain tree of channel `chIdx` at layer `chLayer`, with the
addresses set exactly as in `genChainTreeInto` (channel.go). -/
def ctLeafVal (c : Ctx) (skSeed pubSeed : Bytes) (chIdx chLayer i : Nat) : Bytes :=
  let addr := (SubTreeAddress.mk chLayer chIdx).address
  c.genLeaf skSeed pubSeed
    (((emptyAddr.setSubTreeFrom addr).setType lTreeAddrType).setLTree i)
    ((emptyAddr.setSubTreeFrom addr).setOTS i)

/-- Value of chain-tree node `(h, 0)`: `node(0,0)` is leaf 0 and
`node(h+1, 0) = H(node(h,0), node(h,1))` with `node(h,1) = leaf(h+1)`, the
parent keyed by the node address with tree-height `h` and tree-index 0
(channel.go `genChainTreeInto`). -/
def ctNode0 (c : Ctx) (skSeed pubSeed : Bytes) (chIdx chLayer : Nat) : Nat → Bytes
  | 0 => ctLeafVal c skSeed pubSeed chIdx chLayer 0
  | h + 1 =>
    let addr := (SubTreeAddress.mk chLayer chIdx).address
    c.hNode pubSeed
      ((((emptyAddr.setSubTreeFrom addr).setType treeAddrType).setTreeHeight h).setTreeIndex 0)
      (ctNode0 c skSeed pubSeed chIdx chLayer h) (ctLeafVal c skSeed pubSeed chIdx chLayer (h + 1))

/-- `Channel` (mbpqs.go): 1-based index, number of chain layers, next free index
in the current chain tree, and the channel-wide signature counter.  `keyQty` is
the legacy counter kept by the channel.go snapshot (`addChainTree` /
`ChannelSeqNo`). -/
structure MChannel where
  idx : Nat
  layers : Nat
  chainSeqNo : Nat
  seqNo : Nat
  keyQty : Nat
deriving DecidableEq

/-- `PrivateKey` (mbpqs.go): root-tree counter, channel list, the three seeds,
the root-tree root and the context. -/
structure MPrivateKey where
  seqNo : Nat
  channels : List MChannel
  skSeed : Bytes
  skPrf : Bytes
  pubSeed : Bytes
  root : Bytes
  ctx : Ctx

/-- `PublicKey` (mbpqs.go). -/
structure MPublicKey where
  root : Bytes
  pubSeed : Bytes
  ctx : Ctx

/-- `RootSignature` (mbpqs.go). -/
structure RootSignature where
  seqNo : Nat
  drv : Bytes
  wotsSig : List Bytes
  authPath : List Bytes
  rootHash : Bytes

/-- `MsgSignature` (mbpqs.go); `rootSig` stays `none` in `SignChannelMsg`. -/
structure MsgSignature where
  seqNo : Nat
  drv : Bytes
  wotsSig : List Bytes
  authPath : Bytes
  chainSeqNo : Nat
  chIdx : Nat
  layer : Nat
  rootSig : Option RootSignature

/-- `GrowSignature` (mbpqs.go). -/
structure GrowSignature where
  msgSig : MsgSignature
  rootHash : Bytes

/-- `deriveChainTreeHeight` (channel.go): the chain tree at layer `chainLayer`
has height `chanH + ge * chainLayer`. -/
def deriveChainTreeHeight (c : Ctx) (chainLayer : Nat) : Nat :=
  c.p.chanH + c.p.ge * chainLayer

/-- `GetSeqNo` (mbpqs.go): refuses when `seqNo ≥ 1 << rootH`, otherwise
post-increments `seqNo` and returns its previous value.  Go mutates the
receiver; the model returns the updated key alongside the result. -/
def GetSeqNo (sk : MPrivateKey) : Except String Nat × MPrivateKey :=
  if sk.seqNo ≥ 1 <<< sk.ctx.p.rootH then (.error "no unused channel signing keys left", sk)
  else (.ok sk.seqNo, { sk with seqNo := sk.seqNo + 1 })

/-- `SignChannelRoot` (mbpqs.go): reserves a root-tree index, derives `drv`,
hashes the channel root, signs it with WOTS+ at OTS index `seqNo` (layer 0,
tree 0) and attaches the root-tree authentication path. -/
def SignChannelRoot (sk : MPrivateKey) (chRt : Bytes) : Except String RootSignature × MPrivateKey :=
  match GetSeqNo sk with
  | (.error e, sk') => (.error e, sk')
  | (.ok seqNo, sk') =>
    let drv := sk.ctx.prfUint64 seqNo sk.skPrf
    let hashChRt := sk.ctx.hashMessage chRt drv sk.root seqNo
    let otsAddr := emptyAddr.setOTS seqNo
    (.ok { seqNo := seqNo, drv := drv,
           wotsSig := wotsSign sk.ctx sk.pubSeed sk.skSeed otsAddr hashChRt,
           authPath := rtAuthPath sk.ctx sk.skSeed sk.pubSeed seqNo,
           rootHash := chRt }, sk')

/-- `VerifyChannelRoot` (mbpqs.go): recomputes the leaf from the WOTS+
signature, walks up the root tree along `rootH` authentication-path slices and
compares the result against `pk.root`; on mismatch it returns `false` together
with the non-nil `invalid signature` error.  An authentication path shorter
than `rootH` siblings makes the loop's slice panic (`none`). -/
def VerifyChannelRoot (pk : MPublicKey) (rtSig : RootSignature) (chRt : Bytes) :
    Option (Bool × Option String) :=
  let hashChRt := pk.ctx.hashMessage chRt rtSig.drv pk.root rtSig.seqNo
  let otsAddr := emptyAddr.setOTS rtSig.seqNo
  let wotsPk := wotsPkFromSig pk.ctx rtSig.wotsSig hashChRt pk.pubSeed otsAddr
  let lAddr := (emptyAddr.setType lTreeAddrType).setLTree rtSig.seqNo
  let leafv := pk.ctx.ltree pk.pubSeed lAddr wotsPk
  match rootWalk pk.ctx pk.pubSeed rtSig.authPath pk.ctx.p.rootH 0 rtSig.seqNo leafv with
  | none => none
  | some res =>
    if res = pk.root then some (true, none) else some (false, some "invalid signature")

/-- Modelled from the spec: `getChannel` is not under src/; the spec fixes
channels as an ordered 1-indexed list with index 0 invalid (§3, §4.6), so
channel `chIdx` sits at list position `chIdx − 1`. -/
def getChannel (sk : MPrivateKey) (chIdx : Nat) : MChannel :=
  sk.channels.getD (chIdx - 1) ⟨0, 0, 0, 0, 0⟩

/-- Modelled from the spec: `getChannelLayer` is not under src/; the current
chain layer of a channel is its `layers` field (createChannel generates the
first chain tree at layer 1 and sets `layers = 1`). -/
def getChannelLayer (sk : MPrivateKey) (chIdx : Nat) : Nat :=
  (getChannel sk chIdx).layers

/-- Modelled from the spec: `ChannelSeqNos` is not under src/.  Per §4.6 a
message signature increments the channel's `chainSeqNo` (OTS index
`chainSeqNo` after the increment, scenario values 1, 2, 3) and consumes the
channel-wide `seqNo` (returned values 0, 1, 2). -/
def ChannelSeqNos (sk : MPrivateKey) (chIdx : Nat) : (Nat × Nat) × MPrivateKey :=
  let ch := getChannel sk chIdx
  let ch' : MChannel := { ch with chainSeqNo := ch.chainSeqNo + 1, seqNo := ch.seqNo + 1 }
  ((ch.chainSeqNo + 1, ch.seqNo),
   { sk with channels := sk.channels.set (chIdx - 1) ch' })

/-- The `MustGrowFirst` error string of `SignChannelMsg`. -/
def MustGrowFirstMsg : String := "please grow the channel before signing new messages in it"

/-- `SignChannelMsg` (mbpqs.go): rejects channel index 0 and indices beyond the
channel list; without the `lastOne` flag rejects signing with the reserved last
key (`MustGrowFirst`); otherwise advances the channel counters and signs at OTS
index `chainSeqNo` of the current chain tree, the authentication node being
chain-tree node `(chainSeqNo − 1, 0)` (`ct.AuthPath`).  The chain-tree node
values are taken functionally from `ctNode0`, i.e. for the corrected
`(2t−1)·n` allocation (`genChainTreeStore_node0`); the shipped `newChainTree`
allocates only `(2·height−1)·2` bytes, on which the generation this function
runs panics for every `n > 2` (`genChainTreeIntoPanics`) before any signature
is produced. -/
def SignChannelMsg (sk : MPrivateKey) (chIdx : Nat) (msg : Bytes) (lastOne : Bool) :
    Except String MsgSignature × MPrivateKey :=
  if chIdx = 0 then (.error "channels start at index 1", sk)
  else if chIdx ≥ sk.channels.length + 1 then
    (.error "channel does not exist, please create it first", sk)
  else if lastOne = false ∧
      deriveChainTreeHeight sk.ctx (getChannel sk chIdx).layers - 1 =
        (getChannel sk chIdx).chainSeqNo then
    (.error MustGrowFirstMsg, sk)
  else
    let r := ChannelSeqNos sk chIdx
    let chainSeqNo := r.1.1
    let seqNo := r.1.2
    let sigIdx := chIdx * 2 ^ 32 + seqNo
    let drv := sk.ctx.prfUint64 sigIdx sk.skPrf
    let chLayer := getChannelLayer sk chIdx
    let otsAddr := ((emptyAddr.setOTS chainSeqNo).setLayer chLayer).setTree chIdx
    let hashMsg := sk.ctx.hashMessage msg drv sk.root sigIdx
    (.ok { seqNo := seqNo, drv := drv,
           wotsSig := wotsSign sk.ctx sk.pubSeed sk.skSeed otsAddr hashMsg,
           authPath := ctNode0 sk.ctx sk.skSeed sk.pubSeed chIdx chLayer (chainSeqNo - 1),
           chainSeqNo := chainSeqNo, chIdx := chIdx, layer := chLayer,
           rootSig := none }, r.2)

/-- `deriveChannel` (channel.go): a fresh channel record for `chIdx`. -/
def deriveChannel (chIdx : Nat) : MChannel := ⟨chIdx, 0, 0, 0, 0⟩

/-- `createChannel` (mbpqs.go): appends a fresh channel at index
`len(channels)+1`, bumps `layers` to 1, generates the first chain tree at
layer 1 and signs its root (`getRootNode`, i.e. node `(height−1, 0)`) under the
root tree.  As in `SignChannelMsg`, the chain-tree root is the functional
`ctNode0` value of the corrected allocation; on the shipped
`(2·height−1)·2`-byte buffer the generation panics for every `n > 2`
(`genChainTreeIntoPanics`) and no channel is created. -/
def createChannel (sk : MPrivateKey) : Except String (Nat × RootSignature) × MPrivateKey :=
  let chIdx := sk.channels.length + 1
  let ch := { deriveChannel chIdx with layers := 1, chainSeqNo := 0 }
  let sk1 := { sk with channels := sk.channels ++ [ch] }
  let root := ctNode0 sk.ctx sk.skSeed sk.pubSeed chIdx 1 (deriveChainTreeHeight sk.ctx 1 - 1)
  let r := SignChannelRoot sk1 root
  (r.1.map (fun rtSig => (chIdx, rtSig)), r.2)

/-- Modelled from the spec: `appendChainTree` is not under src/.  Per §4.6 it
builds the next chain tree at `layer + 1`, signs its root as a message with the
reserved last key (`SignChannelMsg` with `allowLastKey = true`), increments
`layers` and resets `chainSeqNo` to 0. -/
def appendChainTree (sk : MPrivateKey) (chIdx : Nat) : Except String GrowSignature × MPrivateKey :=
  let ch := getChannel sk chIdx
  let newLayer := ch.layers + 1
  let newRoot := ctNode0 sk.ctx sk.skSeed sk.pubSeed chIdx newLayer
    (deriveChainTreeHeight sk.ctx newLayer - 1)
  let r := SignChannelMsg sk chIdx newRoot true
  (r.1.map (fun msig => { msgSig := msig, rootHash := newRoot }),
   match r.1 with
   | .error _ => r.2
   | .ok _ =>
     let ch1 := getChannel r.2 chIdx
     let ch1' : MChannel := { ch1 with layers := ch1.layers + 1, chainSeqNo := 0 }
     { r.2 with channels := r.2.channels.set (chIdx - 1) ch1' })

/-- `GrowChannel` (mbpqs.go): requires the current chain tree to have used its
full capacity (`chainSeqNo = height(layers) − 1`), then appends the next chain
tree. -/
def GrowChannel (sk : MPrivateKey) (chIdx : Nat) : Except String GrowSignature × MPrivateKey :=
  let ch := getChannel sk chIdx
  if deriveChainTreeHeight sk.ctx ch.layers - 1 = ch.chainSeqNo then appendChainTree sk chIdx
  else (.error "last chainTree hasn't used its full capacity yet", sk)

/-- Modelled from the spec: `getNodeHeight` is not under src/.  The verifier
keys `H` with the node address at "the chain tree's height index at which this
signature sits" (§4.7); chain-tree generation keys the node at buffer height
`k` with address tree-height `k − 1`, so the signature with chain sequence
number `k` (recomputing node `(k, 0)`) uses tree-height `k − 1`. -/
def getNodeHeight (_c : Ctx) (_layer k : Nat) : Nat := k - 1

/-- `VerifyChannelMsg` (mbpqs.go): recomputes the leaf at chain index
`chainSeqNo` from the WOTS+ signature, hashes the signature's single
authentication-path node with it at the node address, and compares the result
with the caller's trusted authentication node; mismatch yields `(false, nil)`. -/
def VerifyChannelMsg (pk : MPublicKey) (sig : MsgSignature) (msg authNode : Bytes) :
    Bool × Option String :=
  let sigIdx := sig.chIdx * 2 ^ 32 + sig.seqNo
  let hashMsg := pk.ctx.hashMessage msg sig.drv pk.root sigIdx
  let addr := (SubTreeAddress.mk sig.layer sig.chIdx).address
  let otsAddr := (emptyAddr.setSubTreeFrom addr).setOTS sig.chainSeqNo
  let wotsPk := wotsPkFromSig pk.ctx sig.wotsSig hashMsg pk.pubSeed otsAddr
  let lAddr := ((emptyAddr.setSubTreeFrom addr).setType lTreeAddrType).setLTree sig.chainSeqNo
  let leafv := pk.ctx.ltree pk.pubSeed lAddr wotsPk
  let nAddr := (((emptyAddr.setSubTreeFrom addr).setType treeAddrType).setTreeHeight
    (getNodeHeight pk.ctx sig.layer sig.chainSeqNo)).setTreeIndex 0
  let cur := pk.ctx.hNode pk.pubSeed nAddr sig.authPath leafv
  if cur = authNode then (true, none) else (false, none)

/-- Modelled from the spec: `deriveKeyPair` (keygen path, not under src/):
store the seeds, build the root tree and set `root` to its top node (§4.6). -/
def deriveKeyPair (c : Ctx) (skSeed skPrf pubSeed : Bytes) : MPrivateKey × MPublicKey :=
  let rt := rtRoot c skSeed pubSeed
  ({ seqNo := 0, channels := [], skSeed := skSeed, skPrf := skPrf, pubSeed := pubSeed,
     root := rt, ctx := c },
   { root := rt, pubSeed := pubSeed, ctx := c })

/-- `ChannelSeqNo` (channel.go): reads `sk.Channels[chIdx]` directly (a Go
slice access that panics out of range, modelled by `none`), short-circuits on
`keyQty = 1`, otherwise post-increments the channel's `seqNo`, decrements
`keyQty` and returns the previous `seqNo`. -/
def ChannelSeqNo (sk : MPrivateKey) (chIdx : Nat) : Option (Nat × MPrivateKey) :=
  match sk.channels[chIdx]? with
  | none => none
  | some ch =>
    if ch.keyQty = 1 then some (0, sk)
    else
      let ch' : MChannel := { ch with seqNo := ch.seqNo + 1, keyQty := ch.keyQty - 1 }
      some (ch.seqNo, { sk with channels := sk.channels.set chIdx ch' })

/-- `GetChannelSeqNo` (the channel.go snapshot in unnamed/part_001): the same
direct `sk.Channels[chIdx]` slice access, with the exhaustion check phrased on
`seqNo` against the chain-tree height. -/
def GetChannelSeqNo (sk : MPrivateKey) (chIdx : Nat) : Option (Nat × MPrivateKey) :=
  match sk.channels[chIdx]? with
  | none => none
  | some ch =>
    if ch.seqNo = deriveChainTreeHeight sk.ctx chIdx then some (0, sk)
    else
      let ch' : MChannel := { ch with seqNo := ch.seqNo + 1 }
      some (ch.seqNo, { sk with channels := sk.channels.set chIdx ch' })

/-- Byte offset of chain-tree node `(h, i)`: `n * (2h + i)` (channel.go `node`). -/
def nodeOffset (n h i : Nat) : Nat := n * (2 * h + i)

/-- Buffer length allocated by `newChainTree` (channel.go):
`make([]byte, (2*height-1)*2)`. -/
def newChainTreeBufLen (height : Nat) : Nat := (2 * height - 1) * 2

/-- The `(height, index)` pair a leaf resolves to (channel.go `leaf`):
`leaf(0) = node(0,0)`, `leaf(k) = node(k−1, 1)` for `k ≥ 1`. -/
def leafNodeIdx : Nat → Nat × Nat
  | 0 => (0, 0)
  | k + 1 => (k, 1)

/-- The `(height, index)` arguments of every `ct.node` slice `genChainTreeInto`
(channel.go) takes while filling a height-`height` chain tree: the leaf writes
`ct.leaf(0), …, ct.leaf(height−1)` followed, per level of the internal loop,
by its two reads `node(h−1,0)`, `node(h−1,1)` and its write `node(h,0)`. -/
def chainTreeAccesses (height : Nat) : List (Nat × Nat) :=
  (List.range height).map leafNodeIdx ++
    (List.range' 1 (height - 1)).flatMap (fun h => [(h - 1, 0), (h - 1, 1), (h, 0)])

/-- Whether the slice `buf[n·(2h+i) : n·(2h+i)+n]` taken by `chainTree.node`
(channel.go) stays inside a buffer of `bufLen` bytes; a `false` is a Go slice
panic. -/
def nodeSliceOk (n bufLen h i : Nat) : Bool := nodeOffset n h i + n ≤ bufLen

/-- Whether `genChainTreeInto` panics on the buffer `newChainTree` actually
allocates: true when some node access runs past the `(2·height−1)·2`-byte
buffer. -/
def genChainTreeIntoPanics (n height : Nat) : Bool :=
  (chainTreeAccesses height).any
    (fun a => ! nodeSliceOk n (newChainTreeBufLen height) a.1 a.2)

/-- The context of the spec's concrete scenario:
n = 32, w = 16, rootH = 5, chanH = 4, ge = 2. -/
def ctxC7 : Ctx := ⟨⟨32, 16, 5, 4, 2⟩, 1, fun _ => []⟩

/-- A chain-tree buffer at node granularity: cell `2h + i` (byte offset
`n·(2h+i)`) holds node `(h, i)`. -/
def Store := Nat → Bytes

/-- Writing one cell of the buffer. -/
def updStore (s : Store) (cl : Nat) (v : Bytes) : Store :=
  fun x => if x = cl then v else s x

/-- Cell of leaf `i` (channel.go `leaf`): cell 0 for leaf 0, cell `2(i−1)+1`
for `i ≥ 1`. -/
def leafCell : Nat → Nat
  | 0 => 0
  | i + 1 => 2 * i + 1

/-- One leaf write of `genChainTreeInto` (channel.go):
`copy(ct.leaf(idx), genLeaf(pad, ph, lTreeAddr, otsAddr))`. -/
def writeLeaf (c : Ctx) (skSeed pubSeed : Bytes) (chIdx chLayer : Nat) (s : Store) (i : Nat) :
    Store :=
  updStore s (leafCell i) (ctLeafVal c skSeed pubSeed chIdx chLayer i)

/-- The leaf phase of `genChainTreeInto` as the sequence of leaf writes
performed in the order given by `tr` (the sequential branch writes
`tr = range height`; a parallel run writes some interleaving of the batches). -/
def writeLeaves (c : Ctx) (skSeed pubSeed : Bytes) (chIdx chLayer : Nat) (tr : List Nat)
    (s : Store) : Store :=
  tr.foldl (writeLeaf c skSeed pubSeed chIdx chLayer) s

/-- One step of the sequential internal-node loop of `genChainTreeInto`:
`node(h, 0) := H(node(h−1,0), node(h−1,1))` keyed at tree-height `h − 1`. -/
def nodeStep (c : Ctx) (pubSeed : Bytes) (chIdx chLayer : Nat) (s : Store) (h : Nat) : Store :=
  let addr := (SubTreeAddress.mk chLayer chIdx).address
  updStore s (2 * h)
    (c.hNode pubSeed
      ((((emptyAddr.setSubTreeFrom addr).setType treeAddrType).setTreeHeight (h - 1)).setTreeIndex 0)
      (s (2 * (h - 1))) (s (2 * (h - 1) + 1)))

/-- The internal-node phase: `h` runs from 1 to `height − 1`. -/
def genNodes (c : Ctx) (_skSeed pubSeed : Bytes) (chIdx chLayer height : Nat) (s : Store) : Store :=
  (List.range' 1 (height - 1)).foldl (nodeStep c pubSeed chIdx chLayer) s

/-- The zero-filled fresh buffer. -/
def emptyStore : Store := fun _ => []

/-- `genChainTreeInto` with leaf writes performed in order `tr`, followed by the
(always sequential) internal-node loop. -/
def genChainTreeStore (c : Ctx) (skSeed pubSeed : Bytes) (chIdx chLayer height : Nat)
    (tr : List Nat) : Store :=
  genNodes c skSeed pubSeed chIdx chLayer height
    (writeLeaves c skSeed pubSeed chIdx chLayer tr emptyStore)

/-- The batches of leaf indices handed out by the worker pool of
`genChainTreeInto`: the shared index advances by `perBatch = 32` under the
mutex, so the grabbed ranges are `[0,32), [32,64), …` clipped at `t`,
independently of scheduling. -/
def leafBatches (t : Nat) : Nat → Nat → List (List Nat)
  | 0, _ => []
  | fuel + 1, s =>
    if t ≤ s then [] else List.range' s (min 32 (t - s)) :: leafBatches t fuel (s + 32)

/-- Correspondence between a public key and a signer state: same context and
public seed, and the same root, which is the root tree's top node. -/
def Inv (pk : MPublicKey) (sk : MPrivateKey) : Prop :=
  pk.ctx = sk.ctx ∧ pk.pubSeed = sk.pubSeed ∧ pk.root = sk.root ∧
    sk.root = rtRoot sk.ctx sk.skSeed sk.pubSeed

/-- The private-key fields that key generation fixes once and for all. -/
def sameCore (sk' sk : MPrivateKey) : Prop :=
  sk'.skSeed = sk.skSeed ∧ sk'.skPrf = sk.skPrf ∧ sk'.pubSeed = sk.pubSeed ∧
    sk'.root = sk.root ∧ sk'.ctx = sk.ctx

/-- Signer states reachable from key generation by creating channels, signing
channel roots, signing channel messages in order and growing channels. -/
inductive Reach : MPublicKey → MPrivateKey → Prop
  | keygen (c : Ctx) (s1 s2 s3 : Bytes) :
      Reach (deriveKeyPair c s1 s2 s3).2 (deriveKeyPair c s1 s2 s3).1
  | create (pk : MPublicKey) (sk : MPrivateKey) :
      Reach pk sk → Reach pk (createChannel sk).2
  | signRoot (pk : MPublicKey) (sk : MPrivateKey) (chRt : Bytes) :
      Reach pk sk → Reach pk (SignChannelRoot sk chRt).2
  | signMsg (pk : MPublicKey) (sk : MPrivateKey) (chIdx : Nat) (msg : Bytes) :
      Reach pk sk → Reach pk (SignChannelMsg sk chIdx msg false).2
  | grow (pk : MPublicKey) (sk : MPrivateKey) (chIdx : Nat) :
      Reach pk sk → Reach pk (GrowChannel sk chIdx).2

/-- The correct current authentication node for a message signature: chain-tree
node `(chainSeqNo, 0)` of the signature's channel and layer (the value an
honest verifier tracks, per §4.7). -/
def msgAuthNode (sk : MPrivateKey) (sig : MsgSignature) : Bytes :=
  ctNode0 sk.ctx sk.skSeed sk.pubSeed sig.chIdx sig.layer sig.chainSeqNo

/-- A tiny concrete context for closed instances: n = 1, w = 4, rootH = 1,
chanH = 2, ge = 0, constant underlying hash. -/
def ctxW : Ctx := ⟨⟨1, 4, 1, 2, 0⟩, 1, fun _ => [0]⟩

def skW0 : MPrivateKey := (deriveKeyPair ctxW [1] [2] [3]).1

def pkW : MPublicKey := (deriveKeyPair ctxW [1] [2] [3]).2

def skW1 : MPrivateKey := (createChannel skW0).2

def dummyMsgSig : MsgSignature := ⟨0, [], [], [], 0, 0, 0, none⟩

def dummyRootSig : RootSignature := ⟨0, [], [], [], []⟩

def dummyGrowSig : GrowSignature := ⟨dummyMsgSig, []⟩

def sigW : MsgSignature := ((SignChannelMsg skW1 1 [5] false).1).toOption.getD dummyMsgSig

def rsW : RootSignature := ((SignChannelRoot skW1 [7]).1).toOption.getD dummyRootSig

/-- A concrete context with a mixing hash (content-sensitive), n = 1, w = 4,
rootH = 2, chanH = 1, ge = 1. -/
def ctxC6 : Ctx := ⟨⟨1, 4, 2, 1, 1⟩, 1, fun l => [(l.foldl (fun a b => 2 * a + b + 1) 5) % 251]⟩

/-- A signer state over `ctxC6` whose only channel is at layer 1 with its chain
tree (height `chanH + ge·1 = 2`) fully used (`chainSeqNo = 1`), i.e. ready to
grow. -/
def skC6 : MPrivateKey :=
  { seqNo := 0, channels := [⟨1, 1, 1, 0, 0⟩], skSeed := [1], skPrf := [2], pubSeed := [3],
    root := [4], ctx := ctxC6 }

def gsC6 : GrowSignature := ((GrowChannel skC6 1).1).toOption.getD dummyGrowSig

/-- A public key whose root no recomputation over `ctxW`'s constant hash can
produce, so that any root signature is invalid against it. -/
def pkC3 : MPublicKey := ⟨[9, 9], [3], ctxW⟩

/-- An invalid root signature with a full-length authentication path
(`ctxW.p.rootH = 1` sibling), so that `VerifyChannelRoot` runs its whole loop
without panicking and reaches the final comparison. -/
def rsC3 : RootSignature := ⟨0, [], [], [[0]], []⟩

/-- Signer states used to exhibit the `ChannelSeqNo` indexing slip: one channel
(valid index 1 only) and two channels. -/
def skC9a : MPrivateKey :=
  { seqNo := 0, channels := [⟨1, 1, 0, 0, 5⟩], skSeed := [], skPrf := [], pubSeed := [],
    root := [], ctx := ctxW }

def skC9b : MPrivateKey :=
  { seqNo := 0, channels := [⟨1, 1, 0, 0, 5⟩, ⟨2, 1, 0, 0, 5⟩], skSeed := [], skPrf := [],
    pubSeed := [], root := [], ctx := ctxW }

def dummyChannel : MChannel := ⟨0, 0, 0, 0, 0⟩

/-- Splitting a chain of `b + k` steps at `b` (chains compose). -/
theorem chainF_add (c : Ctx) (pubSeed : Bytes) (a : Address) :
    ∀ b k x s, c.chainF pubSeed a x s (b + k) = c.chainF pubSeed a (c.chainF pubSeed a x s b) (s + b) k := by
  intro b
  induction b with
  | zero => intro k x s; rw [Nat.zero_add, Nat.add_zero]; rfl
  | succ b ih =>
    intro k x s
    have h1 : b + 1 + k = (b + k) + 1 := by omega
    rw [h1]
    show c.chainF pubSeed a (c.F _ _) (s + 1) (b + k) = _
    rw [ih]
    have h2 : s + 1 + b = s + (b + 1) := by omega
    rw [h2]
    rfl

theorem baseW_lt (logw : Nat) (m : Bytes) (cnt : Nat) :
    ∀ d ∈ baseW logw m cnt, d < 2 ^ logw := by
  intro d hd
  have hd' := List.mem_of_mem_take hd
  rcases List.mem_flatMap.mp hd' with ⟨b, _, hb⟩
  rcases List.mem_map.mp hb with ⟨j, _, rfl⟩
  exact Nat.mod_lt _ (Nat.pos_pow_of_pos _ (by omega))

theorem wdigit_lt (c : Ctx) (m : Bytes) (i : Nat) : wdigit c m i < 2 ^ lgw c.p.w := by
  unfold wdigit
  rcases Nat.lt_or_ge i (wotsDigits c m).length with h | h
  · rw [List.getD_eq_getElem _ _ h]
    have hm : (wotsDigits c m)[i] ∈ wotsDigits c m := List.getElem_mem _
    unfold wotsDigits at hm
    rcases List.mem_append.mp hm with h1 | h1
    · exact baseW_lt _ _ _ _ h1
    · exact baseW_lt _ _ _ _ h1
  · rw [List.getD_eq_default _ _ h]
    exact Nat.pos_pow_of_pos _ (by omega)

theorem getD_map_range {α : Type} (f : Nat → α) (n i : Nat) (h : i < n) (d : α) :
    (((List.range n).map f).getD i d) = f i := by
  rw [List.getD_eq_getElem?_getD, List.getElem?_map, List.getElem?_range h]
  rfl

/-- Recomputing a WOTS+ public key from a genuine signature yields the genuine
public key. -/
theorem wotsPkFromSig_wotsSign (c : Ctx) (hw : GoodCtx c) (pubSeed skSeed m : Bytes)
    (a : Address) :
    wotsPkFromSig c (wotsSign c pubSeed skSeed a m) m pubSeed a = wotsPkGen c pubSeed skSeed a := by
  unfold wotsPkFromSig wotsPkGen
  apply List.map_congr_left
  intro i hi
  have hlt : i < wotsLen c.p := List.mem_range.mp hi
  rw [show (wotsSign c pubSeed skSeed a m).getD i [] =
      c.chainF pubSeed (a.setChainIdx i) (wotsSeed c skSeed a i) 0 (wdigit c m i) from
    getD_map_range _ _ _ hlt _]
  have hd : wdigit c m i ≤ c.p.w - 1 := by
    have := wdigit_lt c m i
    rw [hw] at this
    omega
  symm
  nth_rewrite 1 [show c.p.w - 1 = wdigit c m i + (c.p.w - 1 - wdigit c m i) from by omega]
  rw [chainF_add, Nat.zero_add]

theorem xor_div_two (a b : Nat) : (a ^^^ b) / 2 = (a / 2) ^^^ (b / 2) := by
  apply Nat.eq_of_testBit_eq
  intro i
  rw [Nat.testBit_div_two, Nat.testBit_xor, Nat.testBit_xor, Nat.testBit_div_two,
    Nat.testBit_div_two]

theorem two_mul_xor_one (q : Nat) : (2 * q) ^^^ 1 = 2 * q + 1 := by
  apply Nat.eq_of_testBit_eq
  intro i
  cases i with
  | zero => simp [Nat.testBit_zero, Nat.testBit_xor, Nat.mul_add_mod]
  | succ j =>
    rw [Nat.testBit_succ, Nat.testBit_succ, xor_div_two]
    norm_num [Nat.mul_div_cancel_left, Nat.mul_add_div]

theorem two_mul_add_one_xor_one (q : Nat) : (2 * q + 1) ^^^ 1 = 2 * q := by
  apply Nat.eq_of_testBit_eq
  intro i
  cases i with
  | zero =>
    simp only [Nat.testBit_zero, Nat.testBit_xor]
    simp [Nat.xor_mod_two_eq, Nat.mul_add_mod]
    omega
  | succ j =>
    rw [Nat.testBit_succ, Nat.testBit_succ, xor_div_two]
    norm_num [Nat.mul_add_div]

theorem shiftRight_one_eq (n : Nat) : n >>> 1 = n / 2 := by
  simp [Nat.shiftRight_eq_div_pow]

/-- Walking up `m` heights from node `(h, idx)` along the sibling path
reconstructs node `(h + m, idx >> m)`. -/
theorem rootWalk_rtNode (c : Ctx) (skSeed pubSeed : Bytes) (ap : List Bytes) (m : Nat) :
    ∀ h idx,
      (∀ j, j < m → ap[h + j]? = some (rtNode c skSeed pubSeed (h + j) ((idx >>> j) ^^^ 1))) →
      rootWalk c pubSeed ap m h idx (rtNode c skSeed pubSeed h idx) =
        some (rtNode c skSeed pubSeed (h + m) (idx >>> m)) := by
  induction m with
  | zero => intro h idx _; simp [rootWalk]
  | succ m ih =>
    intro h idx hap
    have h0 := hap 0 (by omega)
    rw [Nat.add_zero] at h0
    show (match ap[h]? with
      | none => none
      | some sib =>
        rootWalk c pubSeed ap m (h + 1) (idx >>> 1)
          (if idx % 2 = 0 then
            c.hNode pubSeed
              (((emptyAddr.setType treeAddrType).setTreeHeight h).setTreeIndex (idx >>> 1))
              (rtNode c skSeed pubSeed h idx) sib
           else
            c.hNode pubSeed
              (((emptyAddr.setType treeAddrType).setTreeHeight h).setTreeIndex (idx >>> 1))
              sib (rtNode c skSeed pubSeed h idx))) = _
    rw [h0]
    have hstep :
        (if idx % 2 = 0 then
          c.hNode pubSeed
            (((emptyAddr.setType treeAddrType).setTreeHeight h).setTreeIndex (idx >>> 1))
            (rtNode c skSeed pubSeed h idx) (rtNode c skSeed pubSeed h ((idx >>> 0) ^^^ 1))
         else
          c.hNode pubSeed
            (((emptyAddr.setType treeAddrType).setTreeHeight h).setTreeIndex (idx >>> 1))
            (rtNode c skSeed pubSeed h ((idx >>> 0) ^^^ 1)) (rtNode c skSeed pubSeed h idx)) =
        rtNode c skSeed pubSeed (h + 1) (idx >>> 1) := by
      simp only [Nat.shiftRight_zero, shiftRight_one_eq]
      rcases Nat.even_or_odd idx with ⟨q, hq⟩ | ⟨q, hq⟩
      · subst hq
        rw [if_pos (by omega)]
        have hdiv : q + q = 2 * q := by omega
        rw [hdiv, two_mul_xor_one]
        show _ = c.hNode pubSeed _ (rtNode c skSeed pubSeed h (2 * (2 * q / 2)))
          (rtNode c skSeed pubSeed h (2 * (2 * q / 2) + 1))
        rw [Nat.mul_div_cancel_left _ (by omega : 0 < 2)]
      · subst hq
        rw [if_neg (by omega)]
        rw [two_mul_add_one_xor_one]
        show _ = c.hNode pubSeed _ (rtNode c skSeed pubSeed h (2 * ((2 * q + 1) / 2)))
          (rtNode c skSeed pubSeed h (2 * ((2 * q + 1) / 2) + 1))
        have : (2 * q + 1) / 2 = q := by omega
        rw [this]
    show rootWalk c pubSeed ap m (h + 1) (idx >>> 1)
        (if idx % 2 = 0 then
          c.hNode pubSeed
            (((emptyAddr.setType treeAddrType).setTreeHeight h).setTreeIndex (idx >>> 1))
            (rtNode c skSeed pubSeed h idx) (rtNode c skSeed pubSeed h ((idx >>> 0) ^^^ 1))
         else
          c.hNode pubSeed
            (((emptyAddr.setType treeAddrType).setTreeHeight h).setTreeIndex (idx >>> 1))
            (rtNode c skSeed pubSeed h ((idx >>> 0) ^^^ 1)) (rtNode c skSeed pubSeed h idx)) =
      some (rtNode c skSeed pubSeed (h + (m + 1)) (idx >>> (m + 1)))
    rw [hstep]
    have hap' : ∀ j, j < m →
        ap[(h + 1) + j]? =
          some (rtNode c skSeed pubSeed ((h + 1) + j) (((idx >>> 1) >>> j) ^^^ 1)) := by
      intro j hj
      have := hap (j + 1) (by omega)
      rw [show h + (j + 1) = (h + 1) + j from by omega] at this
      rw [this]
      rw [← Nat.shiftRight_add]
      rw [Nat.add_comm 1 j]
    rw [ih (h + 1) (idx >>> 1) hap']
    rw [← Nat.shiftRight_add]
    rw [Nat.add_assoc h 1 m]
    rw [Nat.add_comm 1 m]

theorem rootWalk_none_iff (c : Ctx) (pubSeed : Bytes) (ap : List Bytes) :
    ∀ s h idx cur,
      (rootWalk c pubSeed ap s h idx cur = none ↔ 0 < s ∧ ap.length < h + s) := by
  intro s
  induction s with
  | zero =>
    intro h idx cur
    simp [rootWalk]
  | succ s ih =>
    intro h idx cur
    unfold rootWalk
    cases hap : ap[h]? with
    | none =>
      have hlen : ap.length ≤ h := by
        by_contra hc
        rw [List.getElem?_eq_getElem (by omega)] at hap
        exact Option.noConfusion hap
      exact ⟨fun _ => ⟨by omega, by omega⟩, fun _ => rfl⟩
    | some sib =>
      have hlen : h < ap.length := by
        by_contra hc
        rw [List.getElem?_eq_none (by omega)] at hap
        exact Option.noConfusion hap
      dsimp only
      rw [ih (h + 1) (idx >>> 1)]
      constructor
      · rintro ⟨_, hlt⟩
        exact ⟨by omega, by omega⟩
      · rintro ⟨_, hlt⟩
        exact ⟨by omega, by omega⟩

theorem sameCore_refl (sk : MPrivateKey) : sameCore sk sk := ⟨rfl, rfl, rfl, rfl, rfl⟩

theorem sameCore_trans {a b c : MPrivateKey} (h1 : sameCore a b) (h2 : sameCore b c) :
    sameCore a c :=
  ⟨h1.1.trans h2.1, h1.2.1.trans h2.2.1, h1.2.2.1.trans h2.2.2.1,
    h1.2.2.2.1.trans h2.2.2.2.1, h1.2.2.2.2.trans h2.2.2.2.2⟩

theorem sameCore_GetSeqNo (sk : MPrivateKey) : sameCore (GetSeqNo sk).2 sk := by
  unfold GetSeqNo
  split
  · exact sameCore_refl sk
  · exact ⟨rfl, rfl, rfl, rfl, rfl⟩

theorem sameCore_SignChannelRoot (sk : MPrivateKey) (chRt : Bytes) :
    sameCore (SignChannelRoot sk chRt).2 sk := by
  unfold SignChannelRoot
  have h := sameCore_GetSeqNo sk
  rcases hG : GetSeqNo sk with ⟨r, sk'⟩
  rw [hG] at h
  cases r <;> exact h

theorem sameCore_SignChannelMsg (sk : MPrivateKey) (chIdx : Nat) (msg : Bytes) (lastOne : Bool) :
    sameCore (SignChannelMsg sk chIdx msg lastOne).2 sk := by
  unfold SignChannelMsg
  split
  · exact sameCore_refl sk
  · split
    · exact sameCore_refl sk
    · split
      · exact sameCore_refl sk
      · exact ⟨rfl, rfl, rfl, rfl, rfl⟩

theorem sameCore_createChannel (sk : MPrivateKey) : sameCore (createChannel sk).2 sk := by
  unfold createChannel
  exact sameCore_trans (sameCore_SignChannelRoot _ _) (sameCore_refl _)

theorem sameCore_appendChainTree (sk : MPrivateKey) (chIdx : Nat) :
    sameCore (appendChainTree sk chIdx).2 sk := by
  unfold appendChainTree
  dsimp only
  have h := sameCore_SignChannelMsg sk chIdx
    (ctNode0 sk.ctx sk.skSeed sk.pubSeed chIdx ((getChannel sk chIdx).layers + 1)
      (deriveChainTreeHeight sk.ctx ((getChannel sk chIdx).layers + 1) - 1)) true
  cases hS : (SignChannelMsg sk chIdx
      (ctNode0 sk.ctx sk.skSeed sk.pubSeed chIdx ((getChannel sk chIdx).layers + 1)
        (deriveChainTreeHeight sk.ctx ((getChannel sk chIdx).layers + 1) - 1)) true).1 with
  | error e => exact h
  | ok msig => exact sameCore_trans ⟨rfl, rfl, rfl, rfl, rfl⟩ h

theorem sameCore_GrowChannel (sk : MPrivateKey) (chIdx : Nat) :
    sameCore (GrowChannel sk chIdx).2 sk := by
  unfold GrowChannel
  dsimp only
  split
  · exact sameCore_appendChainTree sk chIdx
  · exact sameCore_refl sk

theorem Inv_of_sameCore {pk : MPublicKey} {sk sk' : MPrivateKey}
    (hI : Inv pk sk) (hc : sameCore sk' sk) : Inv pk sk' := by
  rcases hI with ⟨h1, h2, h3, h4⟩
  rcases hc with ⟨c1, c2, c3, c4, c5⟩
  exact ⟨h1.trans c5.symm, h2.trans c3.symm, h3.trans c4.symm, by rw [c4, c5, c1, c3]; exact h4⟩

/-- Every reachable signer state matches its public key. -/
theorem Reach_Inv {pk : MPublicKey} {sk : MPrivateKey} (h : Reach pk sk) : Inv pk sk := by
  induction h with
  | keygen c s1 s2 s3 => exact ⟨rfl, rfl, rfl, rfl⟩
  | create pk sk _ ih => exact Inv_of_sameCore ih (sameCore_createChannel sk)
  | signRoot pk sk chRt _ ih => exact Inv_of_sameCore ih (sameCore_SignChannelRoot sk chRt)
  | signMsg pk sk chIdx msg _ ih => exact Inv_of_sameCore ih (sameCore_SignChannelMsg sk chIdx msg false)
  | grow pk sk chIdx _ ih => exact Inv_of_sameCore ih (sameCore_GrowChannel sk chIdx)

theorem one_shiftLeft_eq_pow (n : Nat) : 1 <<< n = 2 ^ n := by
  rw [Nat.shiftLeft_eq, Nat.one_mul]

/-- A root signature produced by `SignChannelRoot` verifies against the
matching public key. -/
theorem verifyRoot_of_signRoot (pk : MPublicKey) (sk : MPrivateKey)
    (hI : Inv pk sk) (hw : GoodCtx sk.ctx) (chRt : Bytes) (rs : RootSignature)
    (h : (SignChannelRoot sk chRt).1 = .ok rs) :
    VerifyChannelRoot pk rs chRt = some (true, none) := by
  rcases hI with ⟨hc, hp, hr, hroot⟩
  unfold SignChannelRoot at h
  rcases hG : GetSeqNo sk with ⟨r, sk'⟩
  rw [hG] at h
  cases r with
  | error e => exact absurd h (by simp)
  | ok v =>
    have hv : v = sk.seqNo ∧ sk.seqNo < 1 <<< sk.ctx.p.rootH := by
      unfold GetSeqNo at hG
      split at hG
      · exact absurd (congrArg Prod.fst hG) (by simp)
      · next hcond =>
        have h1 := congrArg Prod.fst hG
        simp only at h1
        injection h1 with h1
        exact ⟨h1.symm, by omega⟩
    have hvlt : v < 2 ^ sk.ctx.p.rootH := by
      rw [← one_shiftLeft_eq_pow]
      omega
    simp only at h
    injection h with h
    subst h
    unfold VerifyChannelRoot
    dsimp only
    rw [hc, hp, hr]
    rw [wotsPkFromSig_wotsSign sk.ctx hw]
    rw [show Ctx.ltree sk.ctx sk.pubSeed ((emptyAddr.setType lTreeAddrType).setLTree v)
        (wotsPkGen sk.ctx sk.pubSeed sk.skSeed (emptyAddr.setOTS v)) =
      rtNode sk.ctx sk.skSeed sk.pubSeed 0 v from rfl]
    have hap : ∀ j, j < sk.ctx.p.rootH →
        (rtAuthPath sk.ctx sk.skSeed sk.pubSeed v)[0 + j]? =
          some (rtNode sk.ctx sk.skSeed sk.pubSeed (0 + j) ((v >>> j) ^^^ 1)) := by
      intro j hj
      simp only [Nat.zero_add]
      show ((List.range sk.ctx.p.rootH).map
        (fun h => rtNode sk.ctx sk.skSeed sk.pubSeed h ((v >>> h) ^^^ 1)))[j]? = _
      rw [List.getElem?_map, List.getElem?_range hj]
      rfl
    have hW := rootWalk_rtNode sk.ctx sk.skSeed sk.pubSeed
      (rtAuthPath sk.ctx sk.skSeed sk.pubSeed v) sk.ctx.p.rootH 0 v hap
    simp only [Nat.zero_add] at hW
    rw [hW]
    rw [show v >>> sk.ctx.p.rootH = 0 from by
      rw [Nat.shiftRight_eq_div_pow]
      exact Nat.div_eq_of_lt hvlt]
    rw [show rtNode sk.ctx sk.skSeed sk.pubSeed sk.ctx.p.rootH 0 = sk.root from hroot.symm]
    show (if sk.root = sk.root then (some (true, none) : Option (Bool × Option String))
        else some (false, some "invalid signature")) = some (true, none)
    rw [if_pos rfl]

/-- A message signature produced by `SignChannelMsg` verifies against the
matching public key with the correct authentication node (chain-tree node
`(chainSeqNo, 0)`). -/
theorem verifyMsg_of_signMsg (pk : MPublicKey) (sk : MPrivateKey)
    (hI : Inv pk sk) (hw : GoodCtx sk.ctx) (chIdx : Nat) (msg : Bytes) (lastOne : Bool)
    (sig : MsgSignature)
    (h : (SignChannelMsg sk chIdx msg lastOne).1 = .ok sig) :
    VerifyChannelMsg pk sig msg (msgAuthNode sk sig) = (true, none) := by
  rcases hI with ⟨hc, hp, hr, hroot⟩
  unfold SignChannelMsg at h
  split at h
  · exact absurd h (by simp)
  · split at h
    · exact absurd h (by simp)
    · split at h
      · exact absurd h (by simp)
      · simp only at h
        injection h with h
        subst h
        unfold VerifyChannelMsg msgAuthNode
        dsimp only
        rw [hc, hp, hr]
        rw [show ((emptyAddr.setOTS (ChannelSeqNos sk chIdx).1.1).setLayer
              (getChannelLayer sk chIdx)).setTree chIdx =
            (emptyAddr.setSubTreeFrom
              (SubTreeAddress.mk (getChannelLayer sk chIdx) chIdx).address).setOTS
              (ChannelSeqNos sk chIdx).1.1 from rfl]
        rw [wotsPkFromSig_wotsSign sk.ctx hw]
        exact if_pos rfl

/-- A root signature records the channel root it signs in `rootHash`. -/
theorem signRoot_rootHash (sk : MPrivateKey) (chRt : Bytes) (rs : RootSignature)
    (h : (SignChannelRoot sk chRt).1 = .ok rs) : rs.rootHash = chRt := by
  unfold SignChannelRoot at h
  rcases hG : GetSeqNo sk with ⟨r, sk'⟩
  rw [hG] at h
  cases r with
  | error e => exact absurd h (by simp)
  | ok v =>
    simp only at h
    injection h with h
    subst h
    rfl

theorem verifyRoot_mapped (pk : MPublicKey) (sk1 : MPrivateKey)
    (hI : Inv pk sk1) (hw : GoodCtx sk1.ctx) (root : Bytes) (n i : Nat) (rs : RootSignature)
    (h : ((SignChannelRoot sk1 root).1.map (fun rtSig => (n, rtSig))) = .ok (i, rs)) :
    VerifyChannelRoot pk rs rs.rootHash = some (true, none) := by
  cases hS : (SignChannelRoot sk1 root).1 with
  | error e => rw [hS] at h; exact absurd h (by simp [Except.map])
  | ok rs' =>
    rw [hS] at h
    simp only [Except.map] at h
    injection h with h
    have hrs : rs = rs' := by
      have := congrArg Prod.snd h
      simpa using this.symm
    subst hrs
    rw [signRoot_rootHash sk1 root rs hS]
    exact verifyRoot_of_signRoot pk sk1 hI hw root rs hS

theorem verifyMsg_mapped (pk : MPublicKey) (sk : MPrivateKey)
    (hI : Inv pk sk) (hw : GoodCtx sk.ctx) (chIdx : Nat) (newRoot : Bytes) (gs : GrowSignature)
    (h : ((SignChannelMsg sk chIdx newRoot true).1.map
        (fun msig => ({ msgSig := msig, rootHash := newRoot } : GrowSignature))) = .ok gs) :
    VerifyChannelMsg pk gs.msgSig gs.rootHash (msgAuthNode sk gs.msgSig) = (true, none) := by
  cases hS : (SignChannelMsg sk chIdx newRoot true).1 with
  | error e => rw [hS] at h; exact absurd h (by simp [Except.map])
  | ok msig =>
    rw [hS] at h
    simp only [Except.map] at h
    injection h with h
    subst h
    exact verifyMsg_of_signMsg pk sk hI hw chIdx newRoot true msig hS

/-- In the corrected-allocation model — chain-tree node values given
functionally by `ctNode0`, i.e. over a `(2t−1)·n`-byte buffer
(`genChainTreeStore_node0`) instead of the `(2·height−1)·2` bytes the shipped
`newChainTree` allocates — every signature a reachable signer state produces
verifies: a `RootSignature` returned by `SignChannelRoot` (also the one
embedded in `createChannel`'s result, over the signed channel root) passes
`VerifyChannelRoot`, and a `MsgSignature` returned by `SignChannelMsg` (also
the grow signature) passes `VerifyChannelMsg` on the same message with the
correct current authentication node (chain-tree node `(chainSeqNo, 0)`). -/
theorem sign_then_verify_model (pk : MPublicKey) (sk : MPrivateKey)
    (hR : Reach pk sk) (hw : GoodCtx sk.ctx) :
    (∀ chRt rs, (SignChannelRoot sk chRt).1 = .ok rs →
      VerifyChannelRoot pk rs chRt = some (true, none)) ∧
    (∀ i rs, (createChannel sk).1 = .ok (i, rs) →
      VerifyChannelRoot pk rs rs.rootHash = some (true, none)) ∧
    (∀ chIdx msg sig, (SignChannelMsg sk chIdx msg false).1 = .ok sig →
      VerifyChannelMsg pk sig msg (msgAuthNode sk sig) = (true, none)) ∧
    (∀ chIdx gs, (GrowChannel sk chIdx).1 = .ok gs →
      VerifyChannelMsg pk gs.msgSig gs.rootHash (msgAuthNode sk gs.msgSig) = (true, none)) := by
  have hI := Reach_Inv hR
  refine ⟨?_, ?_, ?_, ?_⟩
  · intro chRt rs h
    exact verifyRoot_of_signRoot pk sk hI hw chRt rs h
  · intro i rs h
    unfold createChannel at h
    dsimp only at h
    refine verifyRoot_mapped pk _ ?_ ?_ _ _ i rs h
    · exact Inv_of_sameCore hI ⟨rfl, rfl, rfl, rfl, rfl⟩
    · exact hw
  · intro chIdx msg sig h
    exact verifyMsg_of_signMsg pk sk hI hw chIdx msg false sig h
  · intro chIdx gs h
    unfold GrowChannel at h
    dsimp only at h
    split at h
    · unfold appendChainTree at h
      dsimp only at h
      exact verifyMsg_mapped pk sk hI hw chIdx _ gs h
    · exact absurd h (by simp)

/-- The tiny concrete signer state `skW1` is reachable. -/
theorem reachW : Reach pkW skW1 :=
  Reach.create pkW skW0 (Reach.keygen ctxW [1] [2] [3])

/-- The model round trip at a concrete input: the concrete root and message
signatures verify. -/
theorem sign_then_verify_model_check :
    VerifyChannelRoot pkW rsW [7] = some (true, none) ∧
    VerifyChannelMsg pkW sigW [5] (msgAuthNode skW1 sigW) = (true, none) := by
  have h := sign_then_verify_model pkW skW1 reachW (by decide)
  exact ⟨h.1 [7] rsW (by rfl), h.2.2.1 1 [5] sigW (by rfl)⟩

/-- C1: for every valid byte length `n > 2` (the parameter sets fix n = 32 or
64) and every chain-tree height ≥ 1, some node access of `genChainTreeInto`
runs past the `(2·height−1)·2`-byte buffer `newChainTree` allocates — a Go
slice panic — so `createChannel`, `SignChannelMsg` and `GrowChannel` can never
produce the signatures the claim's round trip quantifies over. -/
theorem C1_generation_always_panics (n height : Nat) (hn : 2 < n) (hh : 1 ≤ height) :
    genChainTreeIntoPanics n height = true := by
  unfold genChainTreeIntoPanics
  rw [List.any_eq_true]
  by_cases h2 : height < 2
  · have h1 : height = 1 := by omega
    subst h1
    refine ⟨(0, 0), by decide, ?_⟩
    have hko : ¬ (nodeOffset n 0 0 + n ≤ newChainTreeBufLen 1) := by
      simp only [nodeOffset, newChainTreeBufLen]
      omega
    simp [nodeSliceOk, hko]
  · refine ⟨(height - 1, 0), ?_, ?_⟩
    · unfold chainTreeAccesses
      refine List.mem_append_right _ ?_
      rw [List.mem_flatMap]
      refine ⟨height - 1, ?_, by simp⟩
      rw [List.mem_range'_1]
      omega
    · have hko : ¬ (nodeOffset n (height - 1) 0 + n ≤ newChainTreeBufLen height) := by
        show ¬ (n * (2 * (height - 1) + 0) + n ≤ (2 * height - 1) * 2)
        have h1 : n * (2 * (height - 1) + 0) + n = n * (2 * height - 1) := by
          have he : 2 * (height - 1) + 0 + 1 = 2 * height - 1 := by omega
          calc n * (2 * (height - 1) + 0) + n
              = n * (2 * (height - 1) + 0 + 1) := by ring
            _ = n * (2 * height - 1) := by rw [he]
        have hpos : 0 < 2 * height - 1 := by omega
        have hlt : (2 * height - 1) * 2 < (2 * height - 1) * n :=
          mul_lt_mul_of_pos_left hn hpos
        rw [h1]
        intro hle
        have := lt_of_le_of_lt hle hlt
        rw [Nat.mul_comm] at this
        exact lt_irrefl _ this
      simp [nodeSliceOk, hko]

/-- At the concrete valid parameters n = 32, height 6 (layer-1 chain tree of
the n = 32, chanH = 4, ge = 2 parameter set), chain-tree generation panics. -/
theorem C1_generation_panics_witness : genChainTreeIntoPanics 32 6 = true :=
  C1_generation_always_panics 32 6 (by decide) (by decide)

/-- `VerifyChannelRoot` is the root-tree walk applied to some recomputed leaf
value, with the walk's `none` (the slice panic) passed through and its result
compared against `pk.root`. -/
theorem VerifyChannelRoot_eq_walk (pk : MPublicKey) (rtSig : RootSignature) (chRt : Bytes) :
    ∃ cur, VerifyChannelRoot pk rtSig chRt =
      (match rootWalk pk.ctx pk.pubSeed rtSig.authPath pk.ctx.p.rootH 0 rtSig.seqNo cur with
       | none => none
       | some res =>
         if res = pk.root then some (true, none)
         else some (false, some "invalid signature")) :=
  ⟨pk.ctx.ltree pk.pubSeed ((emptyAddr.setType lTreeAddrType).setLTree rtSig.seqNo)
     (wotsPkFromSig pk.ctx rtSig.wotsSig
       (pk.ctx.hashMessage chRt rtSig.drv pk.root rtSig.seqNo) pk.pubSeed
       (emptyAddr.setOTS rtSig.seqNo)), rfl⟩

/-- C3 (amended): `VerifyChannelMsg` never returns an error (mismatch gives
`(false, nil)`); `VerifyChannelRoot` panics (slicing the authentication path,
modelled `none`) exactly when the path is shorter than `rootH` siblings, and
otherwise returns either `(true, nil)` or `false` together with the fixed
non-fatal `invalid signature` descriptor; neither verifier ever reports
success alongside an error. -/
theorem C3_verify_error_shape (pk : MPublicKey) (sig : MsgSignature) (rtSig : RootSignature)
    (msg authNode chRt : Bytes) :
    ((VerifyChannelMsg pk sig msg authNode).2 = none) ∧
    (VerifyChannelRoot pk rtSig chRt = none ↔ rtSig.authPath.length < pk.ctx.p.rootH) ∧
    (pk.ctx.p.rootH ≤ rtSig.authPath.length →
      VerifyChannelRoot pk rtSig chRt = some (true, none) ∨
      VerifyChannelRoot pk rtSig chRt = some (false, some "invalid signature")) := by
  refine ⟨?_, ?_, ?_⟩
  · unfold VerifyChannelMsg
    dsimp only
    split <;> rfl
  · obtain ⟨cur, hV⟩ := VerifyChannelRoot_eq_walk pk rtSig chRt
    rw [hV]
    have hiff := rootWalk_none_iff pk.ctx pk.pubSeed rtSig.authPath pk.ctx.p.rootH 0
      rtSig.seqNo cur
    cases hwalk : rootWalk pk.ctx pk.pubSeed rtSig.authPath pk.ctx.p.rootH 0 rtSig.seqNo cur with
    | none =>
      have h := hiff.mp hwalk
      exact ⟨fun _ => by omega, fun _ => rfl⟩
    | some res =>
      have h : ¬ (0 < pk.ctx.p.rootH ∧ rtSig.authPath.length < 0 + pk.ctx.p.rootH) := by
        intro hc
        rw [hwalk] at hiff
        exact Option.noConfusion (hiff.mpr hc)
      constructor
      · intro hnone
        have hnone' : (if res = pk.root then (some (true, none) : Option (Bool × Option String))
            else some (false, some "invalid signature")) = none := hnone
        split at hnone' <;> exact Option.noConfusion hnone'
      · intro hlen
        exact absurd ⟨by omega, by omega⟩ h
  · intro hlen
    obtain ⟨cur, hV⟩ := VerifyChannelRoot_eq_walk pk rtSig chRt
    rw [hV]
    cases hwalk : rootWalk pk.ctx pk.pubSeed rtSig.authPath pk.ctx.p.rootH 0 rtSig.seqNo cur with
    | none =>
      have h := (rootWalk_none_iff pk.ctx pk.pubSeed rtSig.authPath pk.ctx.p.rootH 0
        rtSig.seqNo cur).mp hwalk
      exact absurd hlen (by omega)
    | some res =>
      show (if res = pk.root then (some (true, none) : Option (Bool × Option String))
            else some (false, some "invalid signature")) = some (true, none) ∨
          (if res = pk.root then (some (true, none) : Option (Bool × Option String))
            else some (false, some "invalid signature")) = some (false, some "invalid signature")
      split
      · exact Or.inl rfl
      · exact Or.inr rfl

/-- C3 counterexample: on a concrete invalid root signature whose
authentication path has the full `rootH` siblings (so the walk completes
without panicking), `VerifyChannelRoot` returns `false` together with a
non-nil error, refuting "verification never returns a non-nil error merely
because the signature is invalid" as stated. -/
theorem C3_counterexample :
    VerifyChannelRoot pkC3 rsC3 [] = some (false, some "invalid signature") := by rfl

/-- C4: `SignChannelMsg` returns an error exactly when the channel index is 0,
or exceeds the channel count, or the reserved-last-key condition
`chainSeqNo = height(layers) − 1` holds without `allowLastKey` (in which case
the error is `MustGrowFirst`); on every error return the signer state is
unchanged. -/
theorem C4_signMsg_error_conditions (sk : MPrivateKey) (chIdx : Nat) (msg : Bytes)
    (lastOne : Bool) :
    ((∃ e, (SignChannelMsg sk chIdx msg lastOne).1 = .error e) ↔
      (chIdx = 0 ∨ sk.channels.length < chIdx ∨
        (lastOne = false ∧
          deriveChainTreeHeight sk.ctx (getChannel sk chIdx).layers - 1 =
            (getChannel sk chIdx).chainSeqNo))) ∧
    (∀ e, (SignChannelMsg sk chIdx msg lastOne).1 = .error e →
      (SignChannelMsg sk chIdx msg lastOne).2 = sk) ∧
    (chIdx ≠ 0 → chIdx ≤ sk.channels.length → lastOne = false →
      deriveChainTreeHeight sk.ctx (getChannel sk chIdx).layers - 1 =
        (getChannel sk chIdx).chainSeqNo →
      (SignChannelMsg sk chIdx msg lastOne).1 = .error MustGrowFirstMsg) := by
  unfold SignChannelMsg
  split_ifs with h1 h2 h3
  · exact ⟨⟨fun _ => Or.inl h1, fun _ => ⟨_, rfl⟩⟩, fun _ _ => rfl,
      fun hne _ _ _ => absurd h1 hne⟩
  · exact ⟨⟨fun _ => Or.inr (Or.inl (by omega)), fun _ => ⟨_, rfl⟩⟩, fun _ _ => rfl,
      fun _ hle _ _ => by omega⟩
  · exact ⟨⟨fun _ => Or.inr (Or.inr h3), fun _ => ⟨_, rfl⟩⟩, fun _ _ => rfl,
      fun _ _ _ _ => rfl⟩
  · refine ⟨⟨?_, ?_⟩, ?_, ?_⟩
    · rintro ⟨e, he⟩
      exact absurd he (by simp)
    · rintro (h | h | h)
      · exact absurd h h1
      · exact absurd (by omega : chIdx ≥ sk.channels.length + 1) h2
      · exact absurd h h3
    · intro e he
      exact absurd he (by simp)
    · intro _ _ hl hcond
      exact absurd ⟨hl, hcond⟩ h3

/-- C4 at concrete inputs: the invalid-index errors leave the signer state
untouched. -/
theorem C4_witness :
    (SignChannelMsg skW1 0 [1] false).2 = skW1 ∧
    (SignChannelMsg skW1 3 [1] false).2 = skW1 := by
  have h0 := C4_signMsg_error_conditions skW1 0 [1] false
  have h3 := C4_signMsg_error_conditions skW1 3 [1] false
  obtain ⟨e0, he0⟩ := h0.1.mpr (Or.inl rfl)
  obtain ⟨e3, he3⟩ := h3.1.mpr (Or.inr (Or.inl (by decide)))
  exact ⟨h0.2.1 e0 he0, h3.2.1 e3 he3⟩

theorem getSeqNo_ok (t : MPrivateKey) (v : Nat) (h : (GetSeqNo t).1 = .ok v) :
    v = t.seqNo ∧ (GetSeqNo t).2.seqNo = t.seqNo + 1 ∧ t.seqNo < 1 <<< t.ctx.p.rootH := by
  by_cases hc : t.seqNo ≥ 1 <<< t.ctx.p.rootH
  · unfold GetSeqNo at h
    rw [if_pos hc] at h
    exact absurd h (by simp)
  · unfold GetSeqNo at h ⊢
    rw [if_neg hc] at h ⊢
    simp only at h
    injection h with h
    exact ⟨h.symm, rfl, by omega⟩

theorem signRoot_ok (sk : MPrivateKey) (chRt : Bytes) (rs : RootSignature)
    (h : (SignChannelRoot sk chRt).1 = .ok rs) :
    rs.seqNo = sk.seqNo ∧ (SignChannelRoot sk chRt).2.seqNo = sk.seqNo + 1 := by
  unfold SignChannelRoot at h ⊢
  rcases hG : GetSeqNo sk with ⟨r, sk'⟩
  rw [hG] at h
  cases r with
  | error e => exact absurd h (by simp)
  | ok v =>
    simp only at h
    injection h with h
    subst h
    have hv := getSeqNo_ok sk v (by rw [hG])
    rw [hG] at hv
    exact ⟨hv.1, hv.2.1⟩

/-- C5: `GetSeqNo` fails exactly when the post-increment would exceed
`2^rootH`, leaving `seqNo` unchanged on failure; on success it returns the
previous value and increments; any later successful call (the counter never
decreases) returns a distinct value, and root signatures inherit pairwise
distinct sequence numbers. -/
theorem C5_getseqno (sk : MPrivateKey) :
    ((∃ e, (GetSeqNo sk).1 = .error e) ↔ 2 ^ sk.ctx.p.rootH < sk.seqNo + 1) ∧
    ((∃ e, (GetSeqNo sk).1 = .error e) → (GetSeqNo sk).2 = sk) ∧
    (∀ v, (GetSeqNo sk).1 = .ok v → v = sk.seqNo ∧ (GetSeqNo sk).2.seqNo = sk.seqNo + 1) ∧
    (∀ sk' v v', (GetSeqNo sk).1 = .ok v → (GetSeqNo sk).2.seqNo ≤ sk'.seqNo →
      (GetSeqNo sk').1 = .ok v' → v ≠ v') ∧
    (∀ sk' chRt chRt' rs rs', (SignChannelRoot sk chRt).1 = .ok rs →
      (SignChannelRoot sk chRt).2.seqNo ≤ sk'.seqNo →
      (SignChannelRoot sk' chRt').1 = .ok rs' → rs.seqNo ≠ rs'.seqNo) := by
  have hpow := one_shiftLeft_eq_pow sk.ctx.p.rootH
  refine ⟨⟨?_, ?_⟩, ?_, ?_, ?_, ?_⟩
  · rintro ⟨e, he⟩
    by_cases hc : sk.seqNo ≥ 1 <<< sk.ctx.p.rootH
    · omega
    · unfold GetSeqNo at he
      rw [if_neg hc] at he
      exact absurd he (by simp)
  · intro hgt
    refine ⟨"no unused channel signing keys left", ?_⟩
    unfold GetSeqNo
    rw [if_pos (by omega)]
  · rintro ⟨e, he⟩
    by_cases hc : sk.seqNo ≥ 1 <<< sk.ctx.p.rootH
    · unfold GetSeqNo
      rw [if_pos hc]
    · unfold GetSeqNo at he
      rw [if_neg hc] at he
      exact absurd he (by simp)
  · intro v h
    exact ⟨(getSeqNo_ok sk v h).1, (getSeqNo_ok sk v h).2.1⟩
  · intro sk' v v' h hle h'
    have h1 := getSeqNo_ok sk v h
    have h2 := getSeqNo_ok sk' v' h'
    omega
  · intro sk' chRt chRt' rs rs' h hle h'
    have h1 := signRoot_ok sk chRt rs h
    have h2 := signRoot_ok sk' chRt' rs' h'
    omega

/-- C5 at a concrete input: the first `GetSeqNo` returns 0 and bumps the
counter, and a subsequent successful call returns a different value. -/
theorem C5_witness :
    ((0 : Nat) = skW0.seqNo ∧ (GetSeqNo skW0).2.seqNo = skW0.seqNo + 1) ∧ (0 : Nat) ≠ 1 := by
  have h := C5_getseqno skW0
  refine ⟨h.2.2.1 0 (by rfl), ?_⟩
  exact h.2.2.2.1 (GetSeqNo skW0).2 0 1 (by rfl) (Nat.le_refl _) (by rfl)

/-- C6 (amended): the chain tree at layer `L` has height `chanH + ge·L`;
`createChannel` generates the initial chain tree at layer 1 (signing its root,
node `(height(1) − 1, 0)`); the (spec-modelled) grow path builds the next
chain tree at `layer + 1`, whose height is `chanH + ge·(layer + 1)` — not
`chanH + ge·layer`. -/
theorem C6_chain_tree_heights (c : Ctx) (L : Nat) (sk : MPrivateKey) :
    (deriveChainTreeHeight c L = c.p.chanH + c.p.ge * L) ∧
    (∀ i rs, (createChannel sk).1 = .ok (i, rs) →
      rs.rootHash = ctNode0 sk.ctx sk.skSeed sk.pubSeed (sk.channels.length + 1) 1
        (deriveChainTreeHeight sk.ctx 1 - 1)) ∧
    (∀ chIdx gs, (GrowChannel sk chIdx).1 = .ok gs →
      gs.rootHash = ctNode0 sk.ctx sk.skSeed sk.pubSeed chIdx
        ((getChannel sk chIdx).layers + 1)
        (deriveChainTreeHeight sk.ctx ((getChannel sk chIdx).layers + 1) - 1)) := by
  refine ⟨rfl, ?_, ?_⟩
  · intro i rs h
    unfold createChannel at h
    dsimp only at h
    cases hS : (SignChannelRoot
        { sk with channels := sk.channels ++
            [{ deriveChannel (sk.channels.length + 1) with layers := 1, chainSeqNo := 0 }] }
        (ctNode0 sk.ctx sk.skSeed sk.pubSeed (sk.channels.length + 1) 1
          (deriveChainTreeHeight sk.ctx 1 - 1))).1 with
    | error e => rw [hS] at h; exact absurd h (by simp [Except.map])
    | ok rs' =>
      rw [hS] at h
      simp only [Except.map] at h
      injection h with h
      have hrs : rs = rs' := by
        have := congrArg Prod.snd h
        simpa using this.symm
      subst hrs
      exact signRoot_rootHash _ _ rs hS
  · intro chIdx gs h
    unfold GrowChannel at h
    dsimp only at h
    split at h
    · unfold appendChainTree at h
      dsimp only at h
      cases hS : (SignChannelMsg sk chIdx
          (ctNode0 sk.ctx sk.skSeed sk.pubSeed chIdx ((getChannel sk chIdx).layers + 1)
            (deriveChainTreeHeight sk.ctx ((getChannel sk chIdx).layers + 1) - 1)) true).1 with
      | error e => rw [hS] at h; exact absurd h (by simp [Except.map])
      | ok msig =>
        rw [hS] at h
        simp only [Except.map] at h
        injection h with h
        subst h
        rfl
    · exact absurd h (by simp)

set_option maxRecDepth 100000 in
/-- C6 counterexample: over `ctxC6` (chanH = 1, ge = 1) the tree the grow path
builds for a channel at layer 1 is the layer-2 chain tree of height
`deriveChainTreeHeight 2 = 3`; its root is not the root of a height-2 tree
(`chanH + ge·1 = 2`) as the claim's formula demands. -/
theorem C6_counterexample :
    (GrowChannel skC6 1).1.toOption.map GrowSignature.rootHash =
      some (ctNode0 ctxC6 [1] [3] 1 2 (deriveChainTreeHeight ctxC6 2 - 1)) ∧
    deriveChainTreeHeight ctxC6 2 = 3 ∧
    ctxC6.p.chanH + ctxC6.p.ge * 1 = 2 ∧
    (GrowChannel skC6 1).1.toOption.map GrowSignature.rootHash ≠
      some (ctNode0 ctxC6 [1] [3] 1 2 (ctxC6.p.chanH + ctxC6.p.ge * 1 - 1)) := by
  exact ⟨rfl, rfl, rfl, by decide⟩

set_option maxRecDepth 100000 in
/-- C6 witness: the concrete grow of `skC6` signs the root of the layer-2
chain tree of the code's height `chanH + ge·2`. -/
theorem C6_witness :
    deriveChainTreeHeight ctxC6 2 = ctxC6.p.chanH + ctxC6.p.ge * 2 ∧
    gsC6.rootHash = ctNode0 ctxC6 [1] [3] 1 2 (deriveChainTreeHeight ctxC6 2 - 1) := by
  have h := C6_chain_tree_heights ctxC6 2 skC6
  exact ⟨h.1, h.2.2 1 gsC6 (by rfl)⟩

set_option maxRecDepth 1000000 in
set_option maxHeartbeats 4000000 in
/-- In the corrected-allocation model (chain-tree nodes via `ctNode0`, cf.
`genChainTreeStore_node0`), with parameters n = 32, w = 16, rootH = 5,
chanH = 4, ge = 2 (any seeds, any underlying hash), `createChannel` returns
channel index 1 and the first three message signatures succeed carrying
`seqNo` 0, 1, 2 and `chainSeqNo` 1, 2, 3. -/
theorem firstThreeSignatures_model (hf : Bytes → Bytes) (s1 s2 s3 m1 m2 m3 : Bytes) :
    (let c : Ctx := ⟨⟨32, 16, 5, 4, 2⟩, 1, hf⟩
     let sk0 := (deriveKeyPair c s1 s2 s3).1
     let r0 := createChannel sk0
     let r1 := SignChannelMsg r0.2 1 m1 false
     let r2 := SignChannelMsg r1.2 1 m2 false
     let r3 := SignChannelMsg r2.2 1 m3 false
     r0.1.toOption.map Prod.fst = some 1 ∧
     r1.1.toOption.map (fun g => (g.seqNo, g.chainSeqNo)) = some (0, 1) ∧
     r2.1.toOption.map (fun g => (g.seqNo, g.chainSeqNo)) = some (1, 2) ∧
     r3.1.toOption.map (fun g => (g.seqNo, g.chainSeqNo)) = some (2, 3)) := by
  exact ⟨rfl, rfl, rfl, rfl⟩

/-- C7: at the scenario's own parameters (n = 32, w = 16, rootH = 5,
chanH = 4, ge = 2), `createChannel` builds the layer-1 chain tree of height
chanH + ge·1 = 6, for which `newChainTree` allocates only (2·6−1)·2 = 22
bytes; already the very first access, the leaf-0 write `ct.leaf(0) =
ct.node(0,0)`, slices `buf[0:32]` and panics, so no message signature is ever
produced (its counters behave as claimed only in the corrected-allocation
model, `firstThreeSignatures_model`). -/
theorem C7_create_channel_panics :
    deriveChainTreeHeight ctxC7 1 = 6 ∧
    newChainTreeBufLen (deriveChainTreeHeight ctxC7 1) = 22 ∧
    (chainTreeAccesses (deriveChainTreeHeight ctxC7 1)).head? = some (0, 0) ∧
    nodeSliceOk 32 (newChainTreeBufLen (deriveChainTreeHeight ctxC7 1)) 0 0 = false ∧
    genChainTreeIntoPanics 32 (deriveChainTreeHeight ctxC7 1) = true := by
  exact ⟨rfl, rfl, rfl, rfl, rfl⟩

/-- C9: the `ChannelSeqNo` / `GetChannelSeqNo` accessors index `sk.Channels`
directly with the 1-based `chIdx`: for a key with one channel the valid index
1 is out of bounds (a Go panic, modelled `none`), and with two channels index
1 reads and updates the channel whose `idx` field is 2, leaving channel 1
untouched. -/
theorem C9_channel_indexing :
    ChannelSeqNo skC9a 1 = none ∧
    GetChannelSeqNo skC9a 1 = none ∧
    (ChannelSeqNo skC9b 1).map
      (fun r => ((r.2.channels.getD 0 dummyChannel).idx,
                 (r.2.channels.getD 0 dummyChannel).seqNo,
                 (r.2.channels.getD 1 dummyChannel).idx,
                 (r.2.channels.getD 1 dummyChannel).seqNo)) = some (1, 0, 2, 1) := by
  exact ⟨rfl, rfl, rfl⟩

/-- C10: every successful `SignChannelMsg` carries `chainSeqNo ≥ 1`, so the
authentication-path lookup `node(chainSeqNo − 1, 0)` never underflows, and the
WOTS+ signature is made at OTS index `chainSeqNo` (never index 0). -/
theorem C10_chainSeqNo_positive (sk : MPrivateKey) (chIdx : Nat) (msg : Bytes) (lastOne : Bool)
    (sig : MsgSignature) (h : (SignChannelMsg sk chIdx msg lastOne).1 = .ok sig) :
    1 ≤ sig.chainSeqNo ∧
    sig.authPath = ctNode0 sk.ctx sk.skSeed sk.pubSeed sig.chIdx sig.layer (sig.chainSeqNo - 1) ∧
    sig.wotsSig = wotsSign sk.ctx sk.pubSeed sk.skSeed
      (((emptyAddr.setOTS sig.chainSeqNo).setLayer sig.layer).setTree sig.chIdx)
      (sk.ctx.hashMessage msg sig.drv sk.root (sig.chIdx * 2 ^ 32 + sig.seqNo)) := by
  unfold SignChannelMsg at h
  split at h
  · exact absurd h (by simp)
  · split at h
    · exact absurd h (by simp)
    · split at h
      · exact absurd h (by simp)
      · simp only at h
        injection h with h
        subst h
        exact ⟨Nat.le_add_left 1 _, rfl, rfl⟩

/-- C10 at a concrete input: the first message signature has `chainSeqNo` 1 and
its authentication node is chain-tree node `(0, 0)`. -/
theorem C10_witness :
    1 ≤ sigW.chainSeqNo ∧
    sigW.authPath =
      ctNode0 skW1.ctx skW1.skSeed skW1.pubSeed sigW.chIdx sigW.layer (sigW.chainSeqNo - 1) := by
  have h := C10_chainSeqNo_positive skW1 1 [5] false sigW (by rfl)
  exact ⟨h.1, h.2.1⟩

/-- C2: node offsets `n·(2h+i)` tile the `2t − 1` buffer cells without overlap
and `leaf(k) = node(k−1, 1)` for `k ≥ 1`, as the claim states; but the buffer
`newChainTree` actually allocates holds `(2t−1)·2` bytes, not `(2t−1)·n`:
already at height 2 with n = 32 the root access `node(1, 0)` ends at byte 96,
far past the 6-byte allocation. -/
theorem C2_chain_tree_layout (t n h i h' i' : Nat) :
    (∀ cell, cell < 2 * t - 1 → ∃ a b, b ≤ 1 ∧ 2 * a + b = cell ∧ nodeOffset n a b = n * cell) ∧
    (i ≤ 1 → i' ≤ 1 → 2 * h + i ≠ 2 * h' + i' →
      nodeOffset n h i + n ≤ nodeOffset n h' i' ∨ nodeOffset n h' i' + n ≤ nodeOffset n h i) ∧
    (∀ k, 1 ≤ k → leafNodeIdx k = (k - 1, 1)) ∧
    newChainTreeBufLen 2 < nodeOffset 32 1 0 + 32 := by
  refine ⟨?_, ?_, ?_, by decide⟩
  · intro cell hc
    refine ⟨cell / 2, cell % 2, by omega, by omega, ?_⟩
    unfold nodeOffset
    congr 1
    omega
  · intro hi hi' hne
    unfold nodeOffset
    rcases Nat.lt_or_ge (2 * h + i) (2 * h' + i') with hlt | hge
    · left
      calc n * (2 * h + i) + n = n * (2 * h + i + 1) := by ring
        _ ≤ n * (2 * h' + i') := Nat.mul_le_mul_left n hlt
    · right
      have hlt : 2 * h' + i' + 1 ≤ 2 * h + i := by omega
      calc n * (2 * h' + i') + n = n * (2 * h' + i' + 1) := by ring
        _ ≤ n * (2 * h + i) := Nat.mul_le_mul_left n hlt
  · intro k hk
    cases k with
    | zero => exact absurd hk (by omega)
    | succ j => rfl

/-- C2 at concrete inputs: node `(1,0)` and node `(0,1)` of a 32-byte-node tree
do not overlap, `leaf(2) = node(1,1)`, cell 2 is covered, and the height-2
allocation is shorter than the root access requires. -/
theorem C2_witness :
    (nodeOffset 32 1 0 + 32 ≤ nodeOffset 32 0 1 ∨ nodeOffset 32 0 1 + 32 ≤ nodeOffset 32 1 0) ∧
    leafNodeIdx 2 = (1, 1) ∧
    (∃ a b, b ≤ 1 ∧ 2 * a + b = 2 ∧ nodeOffset 32 a b = 32 * 2) ∧
    newChainTreeBufLen 2 < nodeOffset 32 1 0 + 32 := by
  have hlay := C2_chain_tree_layout 2 32 1 0 0 1
  exact ⟨hlay.2.1 (by decide) (by decide) (by decide), hlay.2.2.1 2 (by decide),
    hlay.1 2 (by decide), hlay.2.2.2⟩

theorem leafCell_inj {a b : Nat} (h : leafCell a = leafCell b) : a = b := by
  cases a with
  | zero =>
    cases b with
    | zero => rfl
    | succ j => simp only [leafCell] at h; omega
  | succ i =>
    cases b with
    | zero => simp only [leafCell] at h; omega
    | succ j => simp only [leafCell] at h; omega

theorem writeLeaves_nmem (c : Ctx) (skSeed pubSeed : Bytes) (chIdx chLayer : Nat)
    (l : List Nat) (x : Nat) (hx : ∀ j ∈ l, leafCell j ≠ x) :
    ∀ s : Store, writeLeaves c skSeed pubSeed chIdx chLayer l s x = s x := by
  induction l with
  | nil => intro s; rfl
  | cons j rest ih =>
    intro s
    have hj : leafCell j ≠ x := hx j (by simp)
    have hrest : ∀ k ∈ rest, leafCell k ≠ x := fun k hk => hx k (by simp [hk])
    show writeLeaves c skSeed pubSeed chIdx chLayer rest
      (writeLeaf c skSeed pubSeed chIdx chLayer s j) x = s x
    rw [ih hrest]
    unfold writeLeaf updStore
    rw [if_neg (fun hE => hj hE.symm)]

theorem writeLeaves_mem (c : Ctx) (skSeed pubSeed : Bytes) (chIdx chLayer : Nat)
    (l : List Nat) (i : Nat) (hi : i ∈ l) :
    ∀ s : Store, writeLeaves c skSeed pubSeed chIdx chLayer l s (leafCell i) =
      ctLeafVal c skSeed pubSeed chIdx chLayer i := by
  induction l with
  | nil => exact absurd hi (by simp)
  | cons j rest ih =>
    intro s
    show writeLeaves c skSeed pubSeed chIdx chLayer rest
      (writeLeaf c skSeed pubSeed chIdx chLayer s j) (leafCell i) = _
    by_cases hir : i ∈ rest
    · exact ih hir _
    · have hij : i = j := by
        rcases List.mem_cons.mp hi with h | h
        · exact h
        · exact absurd h hir
      subst hij
      have hrest : ∀ k ∈ rest, leafCell k ≠ leafCell i := by
        intro k hk hE
        exact hir (leafCell_inj hE ▸ hk)
      rw [writeLeaves_nmem c skSeed pubSeed chIdx chLayer rest _ hrest]
      unfold writeLeaf updStore
      rw [if_pos rfl]

theorem writeLeaves_perm (c : Ctx) (skSeed pubSeed : Bytes) (chIdx chLayer t : Nat)
    (tr : List Nat) (h : ∀ j : Nat, j ∈ tr ↔ j ∈ List.range t) (s : Store) :
    writeLeaves c skSeed pubSeed chIdx chLayer tr s =
      writeLeaves c skSeed pubSeed chIdx chLayer (List.range t) s := by
  funext x
  by_cases hx : ∃ i, i < t ∧ leafCell i = x
  · rcases hx with ⟨i, hit, rfl⟩
    rw [writeLeaves_mem c skSeed pubSeed chIdx chLayer tr i ((h i).mpr (List.mem_range.mpr hit)),
      writeLeaves_mem c skSeed pubSeed chIdx chLayer (List.range t) i (List.mem_range.mpr hit)]
  · have h1 : ∀ j ∈ tr, leafCell j ≠ x := by
      intro j hj hE
      exact hx ⟨j, List.mem_range.mp ((h j).mp hj), hE⟩
    have h2 : ∀ j ∈ List.range t, leafCell j ≠ x := by
      intro j hj hE
      exact hx ⟨j, List.mem_range.mp hj, hE⟩
    rw [writeLeaves_nmem c skSeed pubSeed chIdx chLayer tr x h1,
      writeLeaves_nmem c skSeed pubSeed chIdx chLayer (List.range t) x h2]

/-- With enough fuel, flattening the grabbed batches gives the contiguous range
from the start index to `t`. -/
theorem leafBatches_flatten (t : Nat) :
    ∀ fuel s, t ≤ s + 32 * fuel →
      (leafBatches t fuel s).flatten = List.range' s (t - s) := by
  intro fuel
  induction fuel with
  | zero =>
    intro s hs
    have : t - s = 0 := by omega
    rw [this]
    rfl
  | succ fuel ih =>
    intro s hs
    unfold leafBatches
    split
    · next hts =>
      have : t - s = 0 := by omega
      rw [this]
      rfl
    · next hts =>
      rw [List.flatten_cons, ih (s + 32) (by omega)]
      rcases Nat.lt_or_ge (t - s) 32 with hlt | hge
      · have h1 : min 32 (t - s) = t - s := by omega
        have h2 : t - (s + 32) = 0 := by omega
        rw [h1, h2]
        simp
      · have h1 : min 32 (t - s) = 32 := by omega
        rw [h1, List.range'_append_1]
        congr 1
        omega

/-- C8: the chain tree generated sequentially (threads = 1) is byte-for-byte
the one generated by the parallel worker pool under every interleaving of the
workers: every interleaving writes the grabbed batches in some order
interleaving their contents, hence is a permutation of their concatenation,
and any such write order produces the same buffer as the sequential
`range height` order (the internal-node phase is sequential in both). -/
theorem C8_parallel_deterministic (c : Ctx) (skSeed pubSeed : Bytes)
    (chIdx chLayer height : Nat) (tr : List Nat)
    (h : tr.Perm (leafBatches height height 0).flatten) :
    genChainTreeStore c skSeed pubSeed chIdx chLayer height tr =
      genChainTreeStore c skSeed pubSeed chIdx chLayer height (List.range height) := by
  have hflat : (leafBatches height height 0).flatten = List.range height := by
    rw [leafBatches_flatten height height 0 (by omega)]
    rw [Nat.sub_zero]
    exact (List.range_eq_range' height).symm
  rw [hflat] at h
  unfold genChainTreeStore
  exact congrArg (genNodes c skSeed pubSeed chIdx chLayer height)
    (writeLeaves_perm c skSeed pubSeed chIdx chLayer height tr (fun j => h.mem_iff) emptyStore)

/-- C8 at a concrete input: a height-3 chain tree written in the scrambled
order `[2, 0, 1]` equals the sequential one. -/
theorem C8_witness :
    genChainTreeStore ctxW [1] [3] 1 1 3 [2, 0, 1] =
      genChainTreeStore ctxW [1] [3] 1 1 3 (List.range 3) :=
  C8_parallel_deterministic ctxW [1] [3] 1 1 3 [2, 0, 1] (by decide)

theorem nodeStep_even_ne (c : Ctx) (pubSeed : Bytes) (chIdx chLayer : Nat) (s : Store)
    (h k : Nat) (hne : k ≠ h) : nodeStep c pubSeed chIdx chLayer s h (2 * k) = s (2 * k) := by
  unfold nodeStep updStore
  rw [if_neg (by omega)]

theorem nodeStep_odd (c : Ctx) (pubSeed : Bytes) (chIdx chLayer : Nat) (s : Store)
    (h j : Nat) : nodeStep c pubSeed chIdx chLayer s h (2 * j + 1) = s (2 * j + 1) := by
  unfold nodeStep updStore
  rw [if_neg (by omega)]

theorem nodeStep_self (c : Ctx) (pubSeed : Bytes) (chIdx chLayer : Nat) (s : Store)
    (h : Nat) :
    nodeStep c pubSeed chIdx chLayer s h (2 * h) =
      c.hNode pubSeed
        ((((emptyAddr.setSubTreeFrom (SubTreeAddress.mk chLayer chIdx).address).setType
            treeAddrType).setTreeHeight (h - 1)).setTreeIndex 0)
        (s (2 * (h - 1))) (s (2 * (h - 1) + 1)) := by
  unfold nodeStep updStore
  rw [if_pos rfl]

theorem genNodes_inv (c : Ctx) (skSeed pubSeed : Bytes) (chIdx chLayer height : Nat)
    (hpos : 0 < height) :
    ∀ m, m ≤ height - 1 →
      ((∀ k, k ≤ m →
        (List.range' 1 m).foldl (nodeStep c pubSeed chIdx chLayer)
          (writeLeaves c skSeed pubSeed chIdx chLayer (List.range height) emptyStore) (2 * k) =
          ctNode0 c skSeed pubSeed chIdx chLayer k) ∧
       (∀ j, (List.range' 1 m).foldl (nodeStep c pubSeed chIdx chLayer)
          (writeLeaves c skSeed pubSeed chIdx chLayer (List.range height) emptyStore)
            (2 * j + 1) =
          writeLeaves c skSeed pubSeed chIdx chLayer (List.range height) emptyStore
            (2 * j + 1))) := by
  intro m
  induction m with
  | zero =>
    intro _
    constructor
    · intro k hk
      have hk0 : k = 0 := by omega
      subst hk0
      show writeLeaves c skSeed pubSeed chIdx chLayer (List.range height) emptyStore
        (leafCell 0) = _
      rw [writeLeaves_mem c skSeed pubSeed chIdx chLayer (List.range height) 0
        (List.mem_range.mpr hpos)]
      rfl
    · intro j
      rfl
  | succ m ih =>
    intro hm
    have ihm := ih (by omega)
    rw [List.range'_concat, Nat.one_mul, List.foldl_append]
    constructor
    · intro k hk
      rw [List.foldl_cons, List.foldl_nil]
      by_cases hkm : k = m + 1
      · subst hkm
        rw [show (2 * (m + 1) : Nat) = 2 * (1 + m) from by omega, nodeStep_self]
        rw [show (1 + m - 1 : Nat) = m from by omega]
        rw [ihm.1 m (Nat.le_refl m), ihm.2 m]
        rw [show (2 * m + 1 : Nat) = leafCell (m + 1) from rfl]
        rw [writeLeaves_mem c skSeed pubSeed chIdx chLayer (List.range height) (m + 1)
          (List.mem_range.mpr (by omega))]
        rfl
      · rw [nodeStep_even_ne c pubSeed chIdx chLayer _ (1 + m) k (by omega)]
        exact ihm.1 k (by omega)
    · intro j
      rw [List.foldl_cons, List.foldl_nil, nodeStep_odd]
      exact ihm.2 j

/-- The sequentially generated buffer holds chain-tree node `(h, 0)` at cell
`2h` — the cells `AuthPath` and `getRootNode` read — so the functional
`ctNode0` used by the signer model is exactly what `genChainTreeInto`
produces. -/
theorem genChainTreeStore_node0 (c : Ctx) (skSeed pubSeed : Bytes)
    (chIdx chLayer height : Nat) (h : Nat) (hh : h < height) :
    genChainTreeStore c skSeed pubSeed chIdx chLayer height (List.range height) (2 * h) =
      ctNode0 c skSeed pubSeed chIdx chLayer h := by
  unfold genChainTreeStore genNodes
  exact (genNodes_inv c skSeed pubSeed chIdx chLayer height (by omega) (height - 1)
    (Nat.le_refl _)).1 h (by omega)

end MBPQS
